import Mathlib

/-!
Shallow embedding of the core of the chronicle permanode (grtlr/chronicle.rs)
for checking its natural-language specification against the code.

The embedding covers:
* the HTTP query facade's cookie/state decoding, index-tag validation and
  `get_output` spent computation (`src/chronicle-api/src/listener/rocket.rs`);
* the partitioned paging engine `page` from the same file, including its
  setup/rotation phase, the cyclic partition loop, the per-partition peel
  loop, prefetching and the storage paging-state protocol;
* the collector's message/metadata insert paths
  (`src/permanode-broker/src/collector/event_loop.rs`);
* the syncer's milestone-data handler, `process_more`, `complete` and
  `fill_gaps` (`src/permanode-broker/src/syncer/event_loop.rs`).

Conventions: Rust `u32`/`u16` milestone and partition values are embedded as
`Nat`, with an explicit `% 2^32` where the source performs `u32` addition
that could wrap; `Vec`/`VecDeque` become `List`; `HashMap` becomes an
association list (insert overwrites); `HashSet` becomes a duplicate-free
list; fallible code returns `Option`/`Except`, with `Option.none` standing
for a Rust panic (`unwrap` on `None`, unsigned underflow, `todo!()`);
unbounded `loop`s are given fuel, with `none`/a dedicated constructor for
fuel exhaustion.  Parts of the repository that the provided sources only
call into (the storage driver's select semantics, the `hints` table, the
`SyncData` range bookkeeping, the HTTP status table) are modelled from the
specification and marked as such in their doc comments.
-/

namespace Chronicle

/-- Error taxonomy of the HTTP listener (`ListenerError` in
`chronicle-api`); the variants carried by the claims.  Payloads of the
variants are irrelevant to the claims and dropped. -/
inductive ListenerError where
  | invalidKeyspace
  | badParse
  | invalidHex
  | indexTooLarge
  | invalidState
  | notFound
  | noResults
  | other
deriving Repr, DecidableEq

/-- Modelled from the spec: the suggested HTTP status carried by each error
kind (section 7 of the spec; the `ErrorBody` conversion lives in
`chronicle-api/src/responses.rs`, which is not among the provided sources):
400 for parse/state/size errors, 404 for `NotFound` and `NoResults`, 500
for `Other`. -/
def statusOf : ListenerError → Nat
  | .invalidKeyspace => 400
  | .badParse => 400
  | .invalidHex => 400
  | .indexTooLarge => 400
  | .invalidState => 400
  | .notFound => 404
  | .noResults => 404
  | .other => 500

/-- Value of an ASCII hex digit byte, as recognised by the `hex` crate
(`0`-`9`, `a`-`f`, `A`-`F`). -/
def hexDigitVal (b : Nat) : Option Nat :=
  if 48 ≤ b ∧ b ≤ 57 then some (b - 48)
  else if 97 ≤ b ∧ b ≤ 102 then some (b - 87)
  else if 65 ≤ b ∧ b ≤ 70 then some (b - 55)
  else none

/-- Hex decoding of a byte string (`hex::decode` / `Vec::<u8>::from_hex`):
consumes digits in pairs; fails on an odd-length input or a non-digit. -/
def hexDecodeBytes : List Nat → Option (List Nat)
  | [] => some []
  | [_] => none
  | b1 :: b2 :: rest =>
    match hexDigitVal b1, hexDigitVal b2 with
    | some h, some l =>
      match hexDecodeBytes rest with
      | some tail => some ((16 * h + l) :: tail)
      | none => none
    | _, _ => none

/-- Byte of the lower-case hex digit for a value below 16 (`hex::encode`
uses lower-case digits). -/
def hexDigitByte (v : Nat) : Nat :=
  if v < 10 then v + 48 else v + 87

/-- Hex encoding of a byte string (`hex::encode`): two lower-case digits
per byte. -/
def hexEncodeBytes : List Nat → List Nat
  | [] => []
  | b :: rest => hexDigitByte (b / 16) :: hexDigitByte (b % 16) :: hexEncodeBytes rest

/-- The resumable paging cookie `StateData`
(spec section 3; deserialized with `bincode` in the endpoints).
`partitionIds` is the list of `(milestone index, partition id)` hint
entries. -/
structure StateData where
  lastPartitionId : Option Nat
  lastMilestoneIndex : Option Nat
  pagingState : Option Nat
  partitionIds : List (Nat × Nat)
deriving Repr, DecidableEq

/-- The `state` query-parameter decoding shared verbatim by all four paged
endpoints (`get_message_children`, `get_message_by_index`,
`get_ed25519_outputs`, `get_transactions_for_address` in
`listener/rocket.rs`): hex-decode the cookie, then deserialize it,
collapsing either failure to `InvalidState`.  The `bincode` deserializer is
passed in as `deser` (its binary format is irrelevant to the claims). -/
def decodeStateParam (deser : List Nat → Option StateData) :
    Option (List Nat) → Except ListenerError (Option StateData)
  | none => .ok none
  | some s =>
    match hexDecodeBytes s with
    | none => .error .invalidState
    | some v =>
      match deser v with
      | none => .error .invalidState
      | some d => .ok (some d)

/-- The index-tag validation prelude of `get_message_by_index`
(`listener/rocket.rs`): when `utf8=true` the tag is first hex-encoded;
then the tag is hex-decoded (failure: `InvalidHex`) and rejected with
`IndexTooLarge` when the decoded length exceeds 64 bytes.  The input is the
UTF-8 byte string of the `index` parameter; on success the (possibly
re-encoded) tag is returned for the rest of the endpoint to use. -/
def indexTagCheck (utf8 : Option Bool) (index : List Nat) :
    Except ListenerError (List Nat) :=
  let index := if utf8 = some true then hexEncodeBytes index else index
  match hexDecodeBytes index with
  | none => .error .invalidHex
  | some bytes =>
    if bytes.length > 64 then .error .indexTooLarge else .ok index

/-- Tri-valued ledger inclusion state
(`chronicle-storage/src/access/types.rs`). -/
inductive LedgerInclusionState where
  | conflicting
  | included
  | noTransaction
deriving Repr, DecidableEq

/-- One unlock row attached to an output (`UnlockRes` in
`chronicle-storage/src/access/types.rs`); the unlock block itself is
irrelevant to the claims and dropped. -/
structure UnlockRes where
  messageId : Nat
  inclusionState : Option LedgerInclusionState
deriving Repr, DecidableEq

/-- A retrieved output row with its unlock rows (`OutputRes` in
`chronicle-storage/src/access/types.rs`); the output payload is dropped. -/
structure OutputRes where
  messageId : Nat
  unlockBlocks : List UnlockRes
deriving Repr, DecidableEq

/-- The unlock-block scan of `get_output` (`listener/rocket.rs`): walk the
unlock rows in order; at the first one with inclusion state `Included` set
the flag and stop; every row seen before that contributes its message id to
the set of metadata queries.  Returns the flag and the collected ids in
iteration order (before deduplication). -/
def scanUnlockBlocks : List UnlockRes → Bool × List Nat
  | [] => (false, [])
  | b :: rest =>
    if b.inclusionState = some .included then (true, [])
    else
      let (found, ids) := scanUnlockBlocks rest
      (found, b.messageId :: ids)

/-- The `is_spent` computation of `get_output` (`listener/rocket.rs`).
`metaOf id` models the storage lookup
`query::<Option<MessageMetadata>>(…, message_id, …)`, collapsed to its
`ledger_inclusion_state` field: the outer `Option` is query success (the
code drops failed queries with `filter_map(ok)`), the next is row presence
(dropped with `flatten`), the inner is the metadata's inclusion state.
Returns `is_spent` together with the list of message ids for which metadata
queries were issued (deduplicated, as the code collects them in a
`HashSet`). -/
def getOutputIsSpent (metaOf : Nat → Option (Option (Option LedgerInclusionState)))
    (out : OutputRes) : Bool × List Nat :=
  if out.unlockBlocks.isEmpty then (false, [])
  else
    let (found, ids0) := scanUnlockBlocks out.unlockBlocks
    let ids := ids0.dedup
    if ids.isEmpty then (found, [])
    else
      (ids.any (fun i => metaOf i = some (some (some .included))), ids)

/-- Partitioning configuration (`PartitionConfig` in `chronicle-common`;
the file is not among the provided sources).  `milestoneChunkSize` is the
number of consecutive milestones per partition chunk. -/
structure PartitionConfigM where
  milestoneChunkSize : Nat
  partitionCount : Nat
deriving Repr, DecidableEq

/-- Modelled from the spec: the partitioner mapping
`pid = (ms / chunk_size) mod partition_count` (spec section 4.2;
`Partitioner::partition_id` lives in `chronicle-common`, which is not among
the provided sources). -/
def partitionId (cfg : PartitionConfigM) (ms : Nat) : Nat :=
  (ms / cfg.milestoneChunkSize) % cfg.partitionCount

/-- Message payload, reduced to the shape the collector dispatches on
(`Payload` from `bee_message`): an indexation (keyed by its hash), a
transaction, or any other payload kind. -/
inductive PayloadM where
  | indexation (hash : Nat)
  | transaction
  | otherKind
deriving Repr, DecidableEq

/-- A ledger message, reduced to the fields the collector reads: its parent
message ids and its optional payload. -/
structure MessageM where
  parents : List Nat
  payload : Option PayloadM
deriving Repr, DecidableEq

/-- Incoming referenced-message metadata (`MessageMetadataObj` as used in
`collector/event_loop.rs`), reduced to the fields the collector reads. -/
structure MessageMetadataObj where
  messageId : Nat
  parentMessageIds : List Nat
  referencedByMilestoneIndex : Option Nat
  ledgerInclusionState : Option LedgerInclusionState
deriving Repr, DecidableEq

/-- A storage insert issued by the collector; only the dimensions the
claims constrain are kept (which row family, under which partition id, and
the record's milestone index). -/
inductive InsertRec where
  | msgRow (id : Nat)
  | msgWithMetaRow (id : Nat)
  | metaRow (id : Nat)
  | parent (parentId : Nat) (pid : Nat) (milestoneIndex : Nat) (childId : Nat)
      (inclusionState : Option LedgerInclusionState)
  | hashedIndex (hash : Nat) (pid : Nat) (milestoneIndex : Nat) (msgId : Nat)
      (inclusionState : Option LedgerInclusionState)
deriving Repr, DecidableEq

/-- Collector state, reduced to the fields the insert paths read: the
current estimated referencing milestone `est_ms`, the metadata LRU cache
(as an association list) and the partitioner configuration. -/
structure CollectorSt where
  estMs : Nat
  lruMsgRef : List (Nat × MessageMetadataObj)
  cfg : PartitionConfigM
deriving Repr, DecidableEq

/-- Association-list lookup standing in for `HashMap`/LRU `get`. -/
def alFind {α : Type} (l : List (Nat × α)) (k : Nat) : Option α :=
  (l.find? (fun p => p.1 == k)).map (·.2)

/-- Association-list insert standing in for `HashMap::insert` (overwrites
an existing binding). -/
def alInsert {α : Type} : List (Nat × α) → Nat → α → List (Nat × α)
  | [], k, v => [(k, v)]
  | (k', v') :: rest, k, v =>
    if k' == k then (k, v) :: rest else (k', v') :: alInsert rest k v

/-- Wrapping `u32` addition, for the places where the source adds to a
`u32` milestone index. -/
def u32add (a b : Nat) : Nat := (a + b) % 4294967296

/-- Model of `Collector::insert_parents` (`collector/event_loop.rs`): one
`ParentRecord` per parent, all under the partition id computed from the
`milestone_index` argument. -/
def insertParents (cfg : PartitionConfigM) (messageId : Nat) (parents : List Nat)
    (milestoneIndex : Nat) (inclusionState : Option LedgerInclusionState) :
    List InsertRec :=
  let pid := partitionId cfg milestoneIndex
  parents.map (fun p => .parent p pid milestoneIndex messageId inclusionState)

/-- Model of `Collector::insert_payload` (`collector/event_loop.rs`): an indexation
payload inserts a hashed-index record under the partition id computed from
the `milestone_index` argument; a transaction payload hits `todo!()`
(modelled as `none`); everything else inserts nothing. -/
def insertPayload (cfg : PartitionConfigM) (messageId : Nat) (msg : MessageM)
    (milestoneIndex : Nat) (inclusionState : Option LedgerInclusionState) :
    Option (List InsertRec) :=
  match msg.payload with
  | some (.indexation h) =>
    some [.hashedIndex h (partitionId cfg milestoneIndex) milestoneIndex messageId inclusionState]
  | some .transaction => none
  | some .otherKind => some []
  | none => some []

/-- Model of `Collector::insert_message` (`collector/event_loop.rs`): the insert
path taken when a message body arrives (with or without its metadata
already cached).  If metadata is cached, `est_ms` is first updated to the
metadata's referencing milestone (panicking — `none` — when that field is
absent) and the joined tuple is stored; otherwise the bare message is
stored.  Parents and payload are then inserted at `est_ms + 1`. -/
def insertMessage (st : CollectorSt) (messageId : Nat) (msg : MessageM) :
    Option (CollectorSt × List InsertRec) :=
  match alFind st.lruMsgRef messageId with
  | some meta =>
    match meta.referencedByMilestoneIndex with
    | none => none
    | some refMs =>
      let st := { st with estMs := refMs }
      let inclusionState := meta.ledgerInclusionState
      let estMilestoneIndex := u32add st.estMs 1
      match insertPayload st.cfg messageId msg estMilestoneIndex inclusionState with
      | none => none
      | some payloadRecs =>
        some (st, .msgWithMetaRow messageId
          :: insertParents st.cfg messageId msg.parents estMilestoneIndex inclusionState
          ++ payloadRecs)
  | none =>
    let inclusionState := (none : Option LedgerInclusionState)
    let estMilestoneIndex := u32add st.estMs 1
    match insertPayload st.cfg messageId msg estMilestoneIndex inclusionState with
    | none => none
    | some payloadRecs =>
      some (st, .msgRow messageId
        :: insertParents st.cfg messageId msg.parents estMilestoneIndex inclusionState
        ++ payloadRecs)

/-- Model of `Collector::insert_message_metadata` (`collector/event_loop.rs`): the
insert path taken when metadata arrives before its message body.  Parents
are inserted at the current `est_ms` (not `est_ms + 1`); no payload insert
happens on this path. -/
def insertMessageMetadata (st : CollectorSt) (meta : MessageMetadataObj) :
    CollectorSt × List InsertRec :=
  (st, .metaRow meta.messageId
    :: insertParents st.cfg meta.messageId meta.parentMessageIds st.estMs
        meta.ledgerInclusionState)

/-- Model of `Collector::insert_message_with_metadata` (`collector/event_loop.rs`):
the insert path taken when metadata arrives for a message body that is
already cached.  Parents and payload are inserted at the current `est_ms`
(not `est_ms + 1`). -/
def insertMessageWithMetadata (st : CollectorSt) (messageId : Nat) (msg : MessageM)
    (meta : MessageMetadataObj) : Option (CollectorSt × List InsertRec) :=
  match insertPayload st.cfg messageId msg st.estMs meta.ledgerInclusionState with
  | none => none
  | some payloadRecs =>
    some (st, .msgWithMetaRow messageId
      :: insertParents st.cfg messageId msg.parents st.estMs meta.ledgerInclusionState
      ++ payloadRecs)

/-- A milestone range as handled by the syncer (a Rust `Range<u32>` with
fields `start`/`end`; `end` is called `stop` here because `end` is reserved
in Lean).  Used both for entries of the sync data and, mutably, as the
iterator of the active range. -/
structure GapRange where
  start : Nat
  stop : Nat
deriving Repr, DecidableEq

/-- The syncer's active work item (`Active` in `permanode-broker`). -/
inductive ActiveRange where
  | complete (r : GapRange)
  | fillGaps (r : GapRange)
deriving Repr, DecidableEq

/-- The part of the stored `SyncData` the syncer consumes: its uncomplete
ranges and its gap ranges (`SyncData` lives in `chronicle-common`, which is
not among the provided sources). -/
structure SyncDataM where
  uncompleteList : List GapRange
  gapList : List GapRange
deriving Repr, DecidableEq

/-- Modelled from the spec: `SyncData::take_lowest_uncomplete` /
`take_lowest_gap` (not among the provided sources) pick and remove the
lowest range of the respective kind (spec section 4.6: start from the
lowest uncomplete range / the lowest gap); "lowest" is by `start`, keeping
the first of equals. -/
def takeLowestRange : List GapRange → Option (GapRange × List GapRange)
  | [] => none
  | g :: rest =>
    match takeLowestRange rest with
    | none => some (g, [])
    | some (g', rest') =>
      if g.start ≤ g'.start then some (g, rest) else some (g', g :: rest')

/-- Syncer state (`Syncer` in `permanode-broker`), reduced to the fields
its event loop reads and writes.  `heap` models the
`BinaryHeap<Ascending<MilestoneData>>` as an ascending-sorted list of
milestone indexes (each `MilestoneData` is reduced to its milestone
index, the only field the claims concern). -/
structure SyncerSt where
  pending : Nat
  highest : Nat
  next : Nat
  heap : List Nat
  active : Option ActiveRange
  syncData : SyncDataM
  solidifierCount : Nat
  eof : Bool
deriving Repr, DecidableEq

/-- Push into the milestone min-heap: ordered insert into the
ascending-sorted list. -/
def pushHeap (m : Nat) : List Nat → List Nat
  | [] => [m]
  | h :: t => if m ≤ h then m :: h :: t else h :: pushHeap m t

/-- The rest of the bootstrap branch of `Syncer::handle_milestone_data`
(the `while let Some(ms_data) = self.milestones_data.pop()` loop): drain
the whole heap to the archiver in ascending order; on a jump
(`next != ms_index`) bump `highest` to the index that caused the glitch.
Returns the forwarded indexes and the final `highest` and local `next`. -/
def bootLoop : List Nat → Nat → Nat → List Nat × Nat × Nat
  | [], highest, next => ([], highest, next)
  | m :: t, highest, next =>
    let highest := if next ≠ m then m else highest
    let next := u32add m 1
    let (sent, hi, nx) := bootLoop t highest next
    (m :: sent, hi, nx)

/-- The steady-state branch of `Syncer::handle_milestone_data`: pop heap
entries and forward them to the archiver while the popped index equals
`next`, incrementing `next` after each; push a non-matching entry back and
stop.  Returns the forwarded indexes, the remaining heap and the final
`next`. -/
def drainHeap : List Nat → Nat → List Nat × List Nat × Nat
  | [], next => ([], [], next)
  | m :: t, next =>
    if m = next then
      let (sent, heap', next') := drainHeap t (u32add next 1)
      (m :: sent, heap', next')
    else ([], m :: t, next)

/-- The solidify-dispatch loop inside `Syncer::process_more`
(`for _ in 0..self.solidifier_count`): on each iteration take the next
milestone from the active range, send a solidify request to solidifier
`ms mod solidifier_count` and increment `pending`; when the range is
exhausted, report whether `pending` was zero at that point (the signal to
drop the active range and recurse).  Returns the dispatched
`(solidifier id, milestone)` pairs, the advanced range, the updated
`pending` and that signal. -/
def dispatchLoop (solidifierCount : Nat) :
    Nat → GapRange → Nat → List (Nat × Nat) × GapRange × Nat × Bool
  | 0, r, p => ([], r, p, false)
  | c + 1, r, p =>
    if r.start < r.stop then
      let send := (r.start % solidifierCount, r.start)
      let (sends, r', p', ex) := dispatchLoop solidifierCount c { r with start := r.start + 1 } (p + 1)
      (send :: sends, r', p', ex)
    else ([], r, p, p == 0)

/-- The `i32::MAX as u32` sentinel marking the open-ended tail range in
`Syncer::complete` / `Syncer::fill_gaps`. -/
def i32MaxU32 : Nat := 2147483647

mutual

/-- Model of `Syncer::process_more` (`syncer/event_loop.rs`): with an active range,
dispatch up to `solidifier_count` solidify requests; when the range is
exhausted and `pending` is zero, drop it and recurse into `complete` /
`fill_gaps`; with no active range, mark EOF.  Fuel bounds the recursion
through `complete`/`fill_gaps` (fuel exhaustion returns the state
unchanged). -/
def processMoreF : Nat → SyncerSt → SyncerSt × List (Nat × Nat)
  | 0, s => (s, [])
  | fuel + 1, s =>
    match s.active with
    | none => ({ s with eof := true }, [])
    | some (.complete r) =>
      let (sends, r', p', ex) := dispatchLoop s.solidifierCount s.solidifierCount r s.pending
      if ex then
        let (s', sends') := completeF fuel { s with active := none, pending := p' }
        (s', sends ++ sends')
      else ({ s with active := some (.complete r'), pending := p' }, sends)
    | some (.fillGaps r) =>
      let (sends, r', p', ex) := dispatchLoop s.solidifierCount s.solidifierCount r s.pending
      if ex then
        let (s', sends') := fillGapsF fuel { s with active := none, pending := p' }
        (s', sends ++ sends')
      else ({ s with active := some (.fillGaps r'), pending := p' }, sends)

/-- Model of `Syncer::complete` (`syncer/event_loop.rs`): take the lowest uncomplete
range; if its end differs from `i32::MAX as u32`, activate it as is (and
set `next` to its start); otherwise it is treated as the open-ended tail:
activate it with its end clamped to `highest` when `highest > start`, and
do nothing (beyond having consumed the range) otherwise.  Activation
triggers `process_more` when `pending` is zero. -/
def completeF : Nat → SyncerSt → SyncerSt × List (Nat × Nat)
  | 0, s => (s, [])
  | fuel + 1, s =>
    match takeLowestRange s.syncData.uncompleteList with
    | none => (s, [])
    | some (gap, rest) =>
      let s := { s with syncData := { s.syncData with uncompleteList := rest } }
      if gap.stop ≠ i32MaxU32 then
        let s := { s with next := gap.start, active := some (.complete gap) }
        if s.pending == 0 then processMoreF fuel s else (s, [])
      else if s.highest > gap.start then
        let s := { s with next := gap.start,
                          active := some (.complete { gap with stop := s.highest }) }
        if s.pending == 0 then processMoreF fuel s else (s, [])
      else (s, [])

/-- Model of `Syncer::fill_gaps` (`syncer/event_loop.rs`): identical to `complete`
but over the gap list and activating a `FillGaps` range. -/
def fillGapsF : Nat → SyncerSt → SyncerSt × List (Nat × Nat)
  | 0, s => (s, [])
  | fuel + 1, s =>
    match takeLowestRange s.syncData.gapList with
    | none => (s, [])
    | some (gap, rest) =>
      let s := { s with syncData := { s.syncData with gapList := rest } }
      if gap.stop ≠ i32MaxU32 then
        let s := { s with next := gap.start, active := some (.fillGaps gap) }
        if s.pending == 0 then processMoreF fuel s else (s, [])
      else if s.highest > gap.start then
        let s := { s with next := gap.start,
                          active := some (.fillGaps { gap with stop := s.highest }) }
        if s.pending == 0 then processMoreF fuel s else (s, [])
      else (s, [])

end

/-- Model of `Syncer::trigger_process_more`: run `process_more` only when `pending`
is zero. -/
def triggerProcessMore (fuel : Nat) (s : SyncerSt) : SyncerSt × List (Nat × Nat) :=
  if s.pending == 0 then processMoreF fuel s else (s, [])

/-- Model of `Syncer::handle_milestone_data` (`syncer/event_loop.rs`): decrement
`pending` (the `u64` subtraction panics on underflow, modelled as `none`),
push the milestone data into the heap, then either run the bootstrap
branch (`highest == 0 && pending == 0`), the steady-state drain
(`highest != 0`), or nothing, and finally trigger `process_more`.  Returns
the new state, the milestone indexes forwarded to the archiver, and the
solidify requests dispatched by a triggered `process_more`. -/
def handleMilestoneData (fuel : Nat) (s : SyncerSt) (ms : Nat) :
    Option (SyncerSt × List Nat × List (Nat × Nat)) :=
  if s.pending == 0 then none
  else
    let s := { s with pending := s.pending - 1, heap := pushHeap ms s.heap }
    if s.highest == 0 && s.pending == 0 then
      match s.heap with
      | [] => none
      | h :: t =>
        let s := { s with highest := h }
        let next := u32add s.highest 1
        let (sent, hi, _nx) := bootLoop t s.highest next
        let s := { s with heap := [], highest := hi }
        let (s', sol) := triggerProcessMore fuel s
        some (s', h :: sent, sol)
    else if s.highest != 0 then
      let (sent, heap', next') := drainHeap s.heap s.next
      let s := { s with heap := heap', next := next' }
      let (s', sol) := triggerProcessMore fuel s
      some (s', sent, sol)
    else
      let (s', sol) := triggerProcessMore fuel s
      some (s', [], sol)

/-- Feed a sequence of `MilestoneData` events through
`handle_milestone_data`, concatenating the milestone indexes forwarded to
the archiver. -/
def runSyncer (fuel : Nat) : SyncerSt → List Nat → Option (SyncerSt × List Nat)
  | s, [] => some (s, [])
  | s, e :: es =>
    match handleMilestoneData fuel s e with
    | none => none
    | some (s', sent, _sol) =>
      match runSyncer fuel s' es with
      | none => none
      | some (s'', rest) => some (s'', sent ++ rest)

/-- A paged storage result (`Paged<VecDeque<Partitioned<O>>>`): the
buffered rows (each row reduced to its milestone index, the only field the
paging engine reads) and the storage layer's resumption token, modelled as
an offset into the partition's row list. -/
structure PagedBuf where
  items : List Nat
  pagingState : Option Nat
deriving Repr, DecidableEq

/-- One `select` query issued by the paging engine, as recorded for the
purposes of this development: target partition id, requested page size,
the `latest_milestone` parameter, the paging state passed along, whether it
came from the prefetch fan-out (as opposed to the in-loop re-query), and
the set of depleted partitions at the moment it was issued. -/
structure QueryRec where
  pid : Nat
  qPageSize : Nat
  qLatest : Nat
  qPagingState : Option Nat
  fromPrefetch : Bool
  depletedAt : List Nat
deriving Repr, DecidableEq

/-- The per-call environment of `page` (`listener/rocket.rs`): the backing
store (partition id to its rows, milestone-descending), the milestone chunk
size, the requested page size, the session's `latest_milestone`, the
(rotated) partition list, and the previous page's stopping marks lifted
from the cookie. -/
structure PageEnv where
  store : List (Nat × List Nat)
  chunk : Nat
  pageSize : Nat
  latest : Nat
  partitionIds : List (Nat × Nat)
  prevPid : Option Nat
  prevMs : Option Nat
  prevPS : Option Nat
deriving Repr, DecidableEq

/-- Modelled from the spec: the storage adapter's paged `select` over one
partition (spec section 4.1; the `Select` implementations live in
`chronicle-storage`, outside the provided sources).  The query is
parameterized by `latest_milestone` to constrain rows to the initial
snapshot (spec section 4.3: rows with milestone index at most `latest`),
returns at most `qPageSize` rows from the resumption offset, and hands back
a new paging state exactly when rows remain. -/
def selectQ (env : PageEnv) (pid : Nat) (qPageSize : Nat) (ps : Option Nat) : PagedBuf :=
  let all := ((alFind env.store pid).getD []).filter (· ≤ env.latest)
  let o := ps.getD 0
  { items := (all.drop o).take qPageSize
    pagingState := if o + qPageSize < all.length then some (o + qPageSize) else none }

/-- The prefetch target computation of `page`
(`(partition_ind..partition_ind + fetch_size).filter_map(|ind|
partition_ids.get(ind).map(|v| v.1))` with `fetch_size = 2`): the partition
ids at the current and next positions of the partition list, without
wraparound. -/
def fetchIds (l : List (Nat × Nat)) (i : Nat) : List Nat :=
  (List.range 2).filterMap (fun k => (l.get? (i + k)).map (·.2))

/-- The paging state passed to a prefetch query of `page`
(`prev_last_partition_id.and_then(|id| if partition_id == id
{ prev_paging_state } else { None })`): the previous paging state exactly
for the partition matching `prev_last_partition_id`. -/
def prefetchPagingState (env : PageEnv) (pid : Nat) : Option Nat :=
  match env.prevPid with
  | some q => if pid == q then env.prevPS else none
  | none => none

/-- Outcome of the inner peel loop of `page`. -/
inductive PeelRes where
  | done (results : List Nat) (st : StateData) (lastIdx : List (Nat × Nat))
      (log : List QueryRec) (rem : List Nat) (cut : Bool)
  | next (buf : PagedBuf) (results : List Nat) (st : StateData)
      (lastIdx : List (Nat × Nat)) (log : List QueryRec) (markDepleted : Bool)
  | out
deriving Repr, DecidableEq

/-- The inner peel loop of `page` (`listener/rocket.rs`, the
`loop { if !list.is_empty() { … } else { … } }` over one partition's row
buffer).  `done … rem cut` is an early page return (`cut = true` for the
"finished a milestone" return when the page is full and the head row's
milestone differs from the partition's last recorded one, `cut = false`
for the empty-buffer return that stores the buffer's paging state);
`rem` is the untaken remainder of the buffer.  `next … markDepleted` is a
`break` to the outer partition cycle (`markDepleted` when the buffer is
exhausted with no paging state).  `out` is fuel exhaustion. -/
def peel (env : PageEnv) (depleted : List Nat) (pid : Nat) :
    Nat → PagedBuf → List Nat → StateData → List (Nat × Nat) → List QueryRec → PeelRes
  | 0, _, _, _, _, _ => .out
  | fuel + 1, buf, results, st, lastIdx, log =>
    match buf.items with
    | r :: rest =>
      if r / env.chunk == (alFind lastIdx pid).getD 0 / env.chunk then
        if results.length ≥ env.pageSize then
          if (alFind lastIdx pid).getD 0 == r then
            peel env depleted pid fuel ⟨rest, buf.pagingState⟩ (results ++ [r]) st lastIdx log
          else
            .done results
              { st with lastPartitionId := some pid, lastMilestoneIndex := some r }
              lastIdx log (r :: rest) true
        else
          peel env depleted pid fuel ⟨rest, buf.pagingState⟩ (results ++ [r]) st
            (alInsert lastIdx pid r) log
      else
        .next ⟨r :: rest, buf.pagingState⟩ results st (alInsert lastIdx pid r) log false
    | [] =>
      if results.length ≥ env.pageSize then
        .done results
          { st with pagingState := buf.pagingState, lastPartitionId := some pid,
                    lastMilestoneIndex := some env.latest }
          lastIdx log [] false
      else
        match buf.pagingState with
        | some ps =>
          peel env depleted pid fuel
            (selectQ env pid (env.pageSize - results.length) (some ps)) results st lastIdx
            (log ++ [⟨pid, env.pageSize - results.length, env.latest, some ps, false, depleted⟩])
        | none => .next ⟨[], none⟩ results st lastIdx log true

/-- The prefetch fan-out of `page` (`listener/rocket.rs`): issue one
`select` per fetch target (the partition ids at positions `i` and `i + 1`
of the partition list), each bounded by `page_size` and parameterized by
`latest_milestone`, forwarding the previous paging state only to the
partition matching `prev_last_partition_id`; the results are inserted into
the buffer map (overwriting an existing buffer) and the queries are
logged. -/
def prefetchInto (env : PageEnv) (depleted : List Nat) (i : Nat)
    (listMap : List (Nat × PagedBuf)) (log : List QueryRec) :
    List (Nat × PagedBuf) × List QueryRec :=
  (fetchIds env.partitionIds i).foldl
    (fun (acc : List (Nat × PagedBuf) × List QueryRec) fpid =>
      (alInsert acc.1 fpid (selectQ env fpid env.pageSize (prefetchPagingState env fpid)),
       acc.2 ++ [⟨fpid, env.pageSize, env.latest, prefetchPagingState env fpid, true,
                  depleted⟩]))
    (listMap, log)

/-- Set insert standing in for `HashSet::insert`: keeps the list
duplicate-free so its length is the set's cardinality. -/
def setInsert (l : List Nat) (k : Nat) : List Nat :=
  if k ∈ l then l else l ++ [k]

/-- The outer cyclic partition loop of `page`
(`for (partition_ind, (index, partition_id)) in
partition_ids.iter().enumerate().cycle()`): lazily seed `last_index_map`
from the hint entry, stop when every partition is depleted, skip depleted
partitions, prefetch (both fetch targets, with the previous paging state
forwarded only to the partition matching `prev_last_partition_id`) when the
current partition has no buffer, then peel.  `none` is fuel exhaustion (the
source loop has no bound of its own). -/
def pageLoop (env : PageEnv) :
    Nat → Nat → List (Nat × PagedBuf) → List Nat → List (Nat × Nat) → List Nat →
    StateData → List QueryRec → Option (List Nat × StateData × List QueryRec)
  | 0, _, _, _, _, _, _, _ => none
  | fuel + 1, ind, listMap, depleted, lastIdx, results, st, log =>
    let n := env.partitionIds.length
    let i := ind % n
    match env.partitionIds.get? i with
    | none => none
    | some (index, pid) =>
      let lastIdx := if (alFind lastIdx pid).isSome then lastIdx else alInsert lastIdx pid index
      if depleted.length == n then some (results, st, log)
      else if pid ∈ depleted then
        pageLoop env fuel (ind + 1) listMap depleted lastIdx results st log
      else
        let (listMap, log) :=
          if (alFind listMap pid).isSome then (listMap, log)
          else prefetchInto env depleted i listMap log
        match alFind listMap pid with
        | none => none
        | some buf =>
          match peel env depleted pid fuel buf results st lastIdx log with
          | .done results st _ log _ _ => some (results, st, log)
          | .next buf' results' st' lastIdx' log' markDep =>
            pageLoop env fuel (ind + 1) (alInsert listMap pid buf')
              (if markDep then setInsert depleted pid else depleted)
              lastIdx' results' st' log'
          | .out => none

/-- Rust's `Iterator::max_by_key` over the hint entries, keyed by the
milestone index: the last entry attaining the maximum. -/
def maxByKeyLast (l : List (Nat × Nat)) : Option (Nat × Nat) :=
  l.foldl
    (fun acc e => match acc with
      | none => some e
      | some m => if m.1 ≤ e.1 then some e else some m)
    none

/-- The setup phase of `page` (`listener/rocket.rs`): on a resumed session
(cookie present), reject an empty partition list as `InvalidState` and take
`latest_milestone` from the cookie (falling back to the first hint entry's
milestone); on a first page, take the hint entries (the result of the
`hints`-table query, passed in here), fail with `NoResults` when empty,
pick the entry with the maximum milestone, rotate the list to start at the
first position carrying that entry's partition id, and store the rotated
list in a fresh cookie.  Returns `(latest_milestone, partition_ids,
cookie)`. -/
def pageSetup (hintEntries : List (Nat × Nat)) (state : Option StateData) :
    Except ListenerError (Nat × List (Nat × Nat) × StateData) :=
  match state with
  | some st =>
    if st.partitionIds.isEmpty then .error .invalidState
    else
      let latest := st.lastMilestoneIndex.getD (((st.partitionIds.head?).map (·.1)).getD 0)
      .ok (latest, st.partitionIds, st)
  | none =>
    if hintEntries.isEmpty then .error .noResults
    else
      match maxByKeyLast hintEntries with
      | none => .error .noResults
      | some (latest, firstPid) =>
        let i := (hintEntries.findIdx? (fun e => e.2 == firstPid)).getD 0
        let rotated := hintEntries.drop i ++ hintEntries.take i
        .ok (latest, rotated, ⟨none, none, none, rotated⟩)

/-- The paging engine `page` (`listener/rocket.rs`): setup, lifting and
clearing of the previous page's stopping marks from the cookie, seeding of
`last_index_map` with the first partition, then the cyclic loop.  Returns
`none` on fuel exhaustion, otherwise the endpoint-visible outcome: either a
`ListenerError` or the page's records (their milestone indexes), the
updated cookie, and the log of issued `select` queries. -/
def page (store : List (Nat × List Nat)) (chunk pageSize : Nat)
    (hintEntries : List (Nat × Nat)) (fuel : Nat) (state : Option StateData) :
    Option (Except ListenerError (List Nat × StateData × List QueryRec)) :=
  match pageSetup hintEntries state with
  | .error e => some (.error e)
  | .ok (latest, pids, st0) =>
    let prevPid := st0.lastPartitionId
    let prevMs := st0.lastMilestoneIndex
    let prevPS := st0.pagingState
    let st := { st0 with lastPartitionId := none, lastMilestoneIndex := none,
                         pagingState := none }
    let env : PageEnv := ⟨store, chunk, pageSize, latest, pids, prevPid, prevMs, prevPS⟩
    let lastIdx := match pids.head? with
      | some (_, p0) => [(p0, prevMs.getD latest)]
      | none => []
    match pageLoop env fuel 0 [] [] lastIdx [] st [] with
    | none => none
    | some (results, st', log) => some (.ok (results, st', log))

/-! Theorems.  Each claim of the specification is settled by exactly one
theorem below (plus a witness for theorems with hypotheses, and a
counterexample where the claim fails on the code). -/

/-- Decoding a hex digit byte produced by the lower-case hex encoder
recovers the encoded value. -/
theorem hexDigitVal_hexDigitByte (v : Nat) (h : v < 16) :
    hexDigitVal (hexDigitByte v) = some v := by
  interval_cases v <;> rfl

/-- Hex decoding inverts hex encoding on byte strings. -/
theorem hexDecodeBytes_hexEncodeBytes (l : List Nat) (h : ∀ b ∈ l, b < 256) :
    hexDecodeBytes (hexEncodeBytes l) = some l := by
  induction l with
  | nil => rfl
  | cons b rest ih =>
    have hb : b < 256 := h b (List.mem_cons_self b rest)
    have hrest : ∀ x ∈ rest, x < 256 := fun x hx => h x (List.mem_cons_of_mem b hx)
    have h1 : hexDigitVal (hexDigitByte (b / 16)) = some (b / 16) :=
      hexDigitVal_hexDigitByte _ (by omega)
    have h2 : hexDigitVal (hexDigitByte (b % 16)) = some (b % 16) :=
      hexDigitVal_hexDigitByte _ (Nat.mod_lt _ (by omega))
    simp only [hexEncodeBytes, hexDecodeBytes, h1, h2, ih hrest]
    congr 1
    simp only [List.cons.injEq, and_true]
    omega

/-- C7: for every paged endpoint, a `state` parameter that fails to
hex-decode or whose bytes fail to deserialize into `StateData` yields the
error kind `InvalidState` (never `Other`); in particular `state="zz"`
(bytes `[122, 122]`) fails with `InvalidState`, whose suggested HTTP status
is 400.  The deserializer is universally quantified, so the statement holds
for any `bincode` behaviour. -/
theorem stateParamFailureIsInvalidState :
    (∀ (deser : List Nat → Option StateData) (s : Option (List Nat)) (e : ListenerError),
        decodeStateParam deser s = .error e → e = .invalidState) ∧
    (∀ deser : List Nat → Option StateData,
        decodeStateParam deser (some [122, 122]) = .error .invalidState) ∧
    statusOf .invalidState = 400 := by
  refine ⟨fun deser s e h => ?_, fun deser => rfl, rfl⟩
  match s with
  | none => simp [decodeStateParam] at h
  | some v =>
    cases hd : hexDecodeBytes v with
    | none =>
      simp only [decodeStateParam, hd] at h
      exact ((Except.error.injEq _ _).mp h).symm
    | some bytes =>
      cases hds : deser bytes with
      | none =>
        simp only [decodeStateParam, hd, hds] at h
        exact ((Except.error.injEq _ _).mp h).symm
      | some d =>
        simp only [decodeStateParam, hd, hds] at h
        exact absurd h (by simp)

/-- Witness for C7: the theorem applied at a concrete failing cookie. -/
theorem stateParamFailureIsInvalidStateWitness :
    ListenerError.invalidState = .invalidState ∧
    decodeStateParam (fun _ => none) (some [122, 122]) = .error .invalidState :=
  ⟨stateParamFailureIsInvalidState.1 (fun _ => none) (some [122, 122]) .invalidState rfl,
   stateParamFailureIsInvalidState.2.1 (fun _ => none)⟩

/-- C8 (amended): `get_message_by_index` rejects with `IndexTooLarge`
every index tag that hex-decodes (after first hex-encoding it when
`utf8=true`) to more than 64 bytes; with `utf8=true` every parameter
longer than 64 bytes is so rejected.  However, a 129-hex-character
parameter without `utf8=true` has odd length, so it fails hex-decoding
with `InvalidHex` instead (see the counterexample); both kinds carry
suggested HTTP status 400. -/
theorem indexTagCheckTooLarge :
    (∀ (utf8 : Option Bool) (index bytes : List Nat),
        hexDecodeBytes (if utf8 = some true then hexEncodeBytes index else index)
          = some bytes →
        64 < bytes.length →
        indexTagCheck utf8 index = .error .indexTooLarge) ∧
    (∀ index : List Nat, (∀ b ∈ index, b < 256) → 64 < index.length →
        indexTagCheck (some true) index = .error .indexTooLarge) ∧
    statusOf .indexTooLarge = 400 ∧ statusOf .invalidHex = 400 := by
  have h1 : ∀ (utf8 : Option Bool) (index bytes : List Nat),
      hexDecodeBytes (if utf8 = some true then hexEncodeBytes index else index)
        = some bytes →
      64 < bytes.length →
      indexTagCheck utf8 index = .error .indexTooLarge := by
    intro utf8 index bytes hdec hlen
    simp only [indexTagCheck, hdec]
    rw [if_pos (by omega)]
  refine ⟨h1, fun index hb hlen => ?_, rfl, rfl⟩
  refine h1 (some true) index index ?_ hlen
  rw [if_pos rfl]
  exact hexDecodeBytes_hexEncodeBytes index hb

/-- Witness for C8: the amended theorem applied to a 130-hex-character tag
(65 bytes) and to a 65-byte tag with `utf8=true`. -/
theorem indexTagCheckTooLargeWitness :
    indexTagCheck none (List.replicate 130 97) = .error .indexTooLarge ∧
    indexTagCheck (some true) (List.replicate 65 0) = .error .indexTooLarge :=
  ⟨indexTagCheckTooLarge.1 none (List.replicate 130 97) (List.replicate 65 170)
      (by decide) (by decide),
   indexTagCheckTooLarge.2.1 (List.replicate 65 0) (by decide) (by decide)⟩

/-- Counterexample for C8: a request whose `index` parameter is 129 hex
characters (and `utf8` unset) fails hex-decoding — 129 is odd — and so is
rejected with `InvalidHex`, not `IndexTooLarge` as the claim states. -/
theorem indexTagCheck129CharsIsInvalidHex :
    indexTagCheck none (List.replicate 129 97) = .error .invalidHex ∧
    indexTagCheck none (List.replicate 129 97) ≠ .error .indexTooLarge := by
  refine ⟨rfl, fun h => ?_⟩
  rw [show indexTagCheck none (List.replicate 129 97) = .error .invalidHex from rfl] at h
  exact absurd ((Except.error.injEq _ _).mp h) (by decide)

/-- When no unlock block is `Included`, the scan collects every block's
message id without setting the flag. -/
theorem scanUnlockBlocks_none_included (blocks : List UnlockRes)
    (h : ∀ b ∈ blocks, b.inclusionState ≠ some .included) :
    scanUnlockBlocks blocks = (false, blocks.map (·.messageId)) := by
  induction blocks with
  | nil => rfl
  | cons b rest ih =>
    have hb := h b (List.mem_cons_self b rest)
    have hrest : ∀ x ∈ rest, x.inclusionState ≠ some .included :=
      fun x hx => h x (List.mem_cons_of_mem b hx)
    simp only [scanUnlockBlocks, if_neg hb, ih hrest, List.map_cons]

/-- C9 (amended): `get_output` computes `is_spent` as follows.  An empty
unlock-block list gives `is_spent = false` with no metadata queries.  When
the first unlock block is `Included`, `is_spent = true` with no metadata
queries.  When no unlock block is `Included`, the (deduplicated) message
ids of all blocks are queried and `is_spent` is whether any query returns
metadata with `ledger_inclusion_state = Included`.  (When an `Included`
unlock block is preceded by non-`Included` blocks, the code still queries
the earlier blocks' message ids and overwrites `is_spent` with the
metadata result, so `is_spent` is not the disjunction the claim states —
see the counterexample.) -/
theorem getOutputIsSpentCases :
    (∀ (metaOf : Nat → Option (Option (Option LedgerInclusionState))) (m : Nat),
        getOutputIsSpent metaOf ⟨m, []⟩ = (false, [])) ∧
    (∀ (metaOf : Nat → Option (Option (Option LedgerInclusionState))) (m : Nat)
        (b : UnlockRes) (rest : List UnlockRes),
        b.inclusionState = some .included →
        getOutputIsSpent metaOf ⟨m, b :: rest⟩ = (true, [])) ∧
    (∀ (metaOf : Nat → Option (Option (Option LedgerInclusionState))) (m : Nat)
        (blocks : List UnlockRes),
        blocks ≠ [] →
        (∀ b ∈ blocks, b.inclusionState ≠ some .included) →
        getOutputIsSpent metaOf ⟨m, blocks⟩ =
          ((blocks.map (·.messageId)).dedup.any
              (fun i => metaOf i = some (some (some .included))),
            (blocks.map (·.messageId)).dedup)) := by
  refine ⟨fun metaOf m => rfl, fun metaOf m b rest hb => ?_, fun metaOf m blocks hne hnone => ?_⟩
  · simp only [getOutputIsSpent, scanUnlockBlocks, if_pos hb]
    rfl
  · have hmap : blocks.map (·.messageId) ≠ [] := by
      simpa using hne
    have hdedup : (blocks.map (·.messageId)).dedup ≠ [] := by
      simpa [List.dedup_eq_nil] using hmap
    simp only [getOutputIsSpent, scanUnlockBlocks_none_included blocks hnone]
    rw [if_neg (by simpa using hne), if_neg (by simpa [List.isEmpty_iff] using hdedup)]

/-- Witness for C9: the amended theorem applied to a concrete spent and a
concrete unspent output. -/
theorem getOutputIsSpentCasesWitness :
    getOutputIsSpent (fun _ => none) ⟨0, [⟨2, some .included⟩, ⟨1, none⟩]⟩ = (true, []) ∧
    getOutputIsSpent (fun _ => some (some (some .included))) ⟨0, [⟨1, none⟩]⟩ = (true, [1]) :=
  ⟨getOutputIsSpentCases.2.1 (fun _ => none) 0 ⟨2, some .included⟩ [⟨1, none⟩] rfl,
   getOutputIsSpentCases.2.2 (fun _ => some (some (some .included))) 0 [⟨1, none⟩]
     (by simp) (by simp)⟩

/-- Counterexample for C9: an output with unlock blocks
`[(message 1, not included), (message 2, Included)]`.  The claim says an
`Included` unlock block makes `is_spent = true` with no further metadata
queries; the code instead queries message 1's metadata (the query list is
`[1]`, not empty) and overwrites `is_spent` with that query's result,
yielding `is_spent = false` even though an `Included` unlock block
exists. -/
theorem getOutputIsSpentOverridden :
    getOutputIsSpent (fun _ => some (some none))
        ⟨0, [⟨1, none⟩, ⟨2, some .included⟩]⟩ = (false, [1]) ∧
    ((⟨0, [⟨1, none⟩, ⟨2, some .included⟩]⟩ : OutputRes).unlockBlocks.any
        (fun b => b.inclusionState = some .included)) = true := by
  exact ⟨rfl, rfl⟩

/-- An ordered insert into the milestone heap is never empty. -/
theorem pushHeap_ne_nil (m : Nat) (l : List Nat) : pushHeap m l ≠ [] := by
  cases l with
  | nil => simp [pushHeap]
  | cons h t =>
    simp only [pushHeap]
    split <;> simp

/-- C10: `handle_milestone_data` decrements `pending` before any other
processing; the decrement (a Rust `u64` subtraction, which panics on
underflow — modelled as `none`) succeeds exactly when `pending ≥ 1` on
entry, and the bootstrap branch (`highest == 0 && pending == 0` after the
decrement) is reachable only when `pending` was exactly 1 before the
event. -/
theorem handleMilestonePendingPrecondition :
    (∀ (fuel : Nat) (s : SyncerSt) (ms : Nat),
        handleMilestoneData fuel s ms = none ↔ s.pending = 0) ∧
    (∀ (fuel : Nat) (s : SyncerSt) (ms : Nat)
        (out : SyncerSt × List Nat × List (Nat × Nat)),
        handleMilestoneData fuel s ms = some out →
        s.highest = 0 → s.pending - 1 = 0 → s.pending = 1) := by
  have h1 : ∀ (fuel : Nat) (s : SyncerSt) (ms : Nat),
      handleMilestoneData fuel s ms = none ↔ s.pending = 0 := by
    intro fuel s ms
    constructor
    · intro h
      by_contra hp
      rw [handleMilestoneData, if_neg (by simpa using hp)] at h
      set s1 : SyncerSt := { s with pending := s.pending - 1, heap := pushHeap ms s.heap }
      cases hh : s1.heap with
      | nil => exact absurd hh (pushHeap_ne_nil ms s.heap)
      | cons hd tl =>
        by_cases hb : (s1.highest == 0 && s1.pending == 0) = true
        · rw [if_pos hb, hh] at h
          exact absurd h (by simp)
        · rw [if_neg hb] at h
          by_cases hs : (s1.highest != 0) = true
          · rw [if_pos hs] at h
            exact absurd h (by simp)
          · rw [if_neg hs] at h
            exact absurd h (by simp)
    · intro h
      rw [handleMilestoneData, if_pos (by simpa using h)]
  refine ⟨h1, fun fuel s ms out h h0 hp => ?_⟩
  have : s.pending ≠ 0 := by
    intro hz
    rw [(h1 fuel s ms).mpr hz] at h
    exact absurd h (by simp)
  omega

/-- Witness for C10: the theorem applied at a bootstrap-shaped concrete
state with `pending = 1` and at `pending = 0`. -/
theorem handleMilestonePendingPreconditionWitness :
    handleMilestoneData 3 ⟨0, 0, 0, [], none, ⟨[], []⟩, 2, false⟩ 4 = none ∧
    (⟨1, 0, 0, [], none, ⟨[], []⟩, 2, false⟩ : SyncerSt).pending = 1 :=
  ⟨(handleMilestonePendingPrecondition.1 3 ⟨0, 0, 0, [], none, ⟨[], []⟩, 2, false⟩ 4).mpr rfl,
   handleMilestonePendingPrecondition.2 3 ⟨1, 0, 0, [], none, ⟨[], []⟩, 2, false⟩ 4
     (⟨0, 4, 0, [], none, ⟨[], []⟩, 2, true⟩, [4], []) (by rfl) rfl rfl⟩

/-- Every parent record produced by `insert_parents` carries the partition
id and the milestone index of its `milestone_index` argument. -/
theorem insertParents_pid (cfg : PartitionConfigM) (mid : Nat) (parents : List Nat)
    (ms : Nat) (incl : Option LedgerInclusionState) :
    ∀ p pid ms' child incl',
      InsertRec.parent p pid ms' child incl' ∈ insertParents cfg mid parents ms incl →
      pid = partitionId cfg ms ∧ ms' = ms := by
  intro p pid ms' child incl' hmem
  simp only [insertParents, List.mem_map] at hmem
  obtain ⟨a, -, heq⟩ := hmem
  cases heq
  exact ⟨rfl, rfl⟩

/-- The payload insert `insert_payload` never produces a parent record. -/
theorem insertPayload_no_parent (cfg : PartitionConfigM) (mid : Nat) (msg : MessageM)
    (ms : Nat) (incl : Option LedgerInclusionState) (recs : List InsertRec)
    (h : insertPayload cfg mid msg ms incl = some recs) :
    ∀ p pid ms' child incl', InsertRec.parent p pid ms' child incl' ∉ recs := by
  intro p pid ms' child incl' hmem
  unfold insertPayload at h
  match hp : msg.payload with
  | some (.indexation hash) =>
    rw [hp] at h
    cases h
    simp at hmem
  | some .transaction => rw [hp] at h; cases h
  | some .otherKind => rw [hp] at h; cases h; simp at hmem
  | none => rw [hp] at h; cases h; simp at hmem

/-- C5 (amended): the collector writes parent fan-out records under the
partition of `est_ms + 1` only on the `insert_message` path (message body
arriving, with or without cached metadata); on the
`insert_message_with_metadata` path (metadata arriving for a cached body)
and the `insert_message_metadata` path (metadata arriving alone) parent
records are written under the partition of the current `est_ms`, without
the `+ 1` offset.  The `u32add … 1` is the source's `u32` increment. -/
theorem collectorParentPartitions :
    (∀ (st : CollectorSt) (id : Nat) (msg : MessageM) (st' : CollectorSt)
        (recs : List InsertRec),
        insertMessage st id msg = some (st', recs) →
        st'.cfg = st.cfg ∧
        ∀ p pid ms child incl, InsertRec.parent p pid ms child incl ∈ recs →
          pid = partitionId st.cfg (u32add st'.estMs 1) ∧ ms = u32add st'.estMs 1) ∧
    (∀ (st : CollectorSt) (id : Nat) (msg : MessageM) (meta : MessageMetadataObj)
        (st' : CollectorSt) (recs : List InsertRec),
        insertMessageWithMetadata st id msg meta = some (st', recs) →
        st' = st ∧
        ∀ p pid ms child incl, InsertRec.parent p pid ms child incl ∈ recs →
          pid = partitionId st.cfg st.estMs ∧ ms = st.estMs) ∧
    (∀ (st : CollectorSt) (meta : MessageMetadataObj) (st' : CollectorSt)
        (recs : List InsertRec),
        insertMessageMetadata st meta = (st', recs) →
        st' = st ∧
        ∀ p pid ms child incl, InsertRec.parent p pid ms child incl ∈ recs →
          pid = partitionId st.cfg st.estMs ∧ ms = st.estMs) := by
  refine ⟨?_, ?_, ?_⟩
  · intro st id msg st' recs h
    match hf : alFind st.lruMsgRef id with
    | some meta =>
      match hr : meta.referencedByMilestoneIndex with
      | none => simp only [insertMessage, hf, hr] at h; exact Option.noConfusion h
      | some refMs =>
        match hp : insertPayload st.cfg id msg (u32add refMs 1) meta.ledgerInclusionState with
        | none => simp only [insertMessage, hf, hr, hp] at h; exact Option.noConfusion h
        | some payloadRecs =>
          simp only [insertMessage, hf, hr, hp, Option.some.injEq, Prod.mk.injEq] at h
          obtain ⟨hst, hrecs⟩ := h
          subst hst hrecs
          refine ⟨rfl, fun p pid ms child incl hmem => ?_⟩
          rcases List.mem_cons.mp hmem with h1 | hmem2
          · cases h1
          · rcases List.mem_append.mp hmem2 with h2 | h3
            · exact insertParents_pid _ _ _ _ _ p pid ms child incl h2
            · exact absurd h3 (insertPayload_no_parent _ _ _ _ _ _ hp p pid ms child incl)
    | none =>
      match hp : insertPayload st.cfg id msg (u32add st.estMs 1) none with
      | none => simp only [insertMessage, hf, hp] at h; exact Option.noConfusion h
      | some payloadRecs =>
        simp only [insertMessage, hf, hp, Option.some.injEq, Prod.mk.injEq] at h
        obtain ⟨hst, hrecs⟩ := h
        subst hst hrecs
        refine ⟨rfl, fun p pid ms child incl hmem => ?_⟩
        rcases List.mem_cons.mp hmem with h1 | hmem2
        · cases h1
        · rcases List.mem_append.mp hmem2 with h2 | h3
          · exact insertParents_pid _ _ _ _ _ p pid ms child incl h2
          · exact absurd h3 (insertPayload_no_parent _ _ _ _ _ _ hp p pid ms child incl)
  · intro st id msg meta st' recs h
    match hp : insertPayload st.cfg id msg st.estMs meta.ledgerInclusionState with
    | none => simp only [insertMessageWithMetadata, hp] at h; exact Option.noConfusion h
    | some payloadRecs =>
      simp only [insertMessageWithMetadata, hp, Option.some.injEq, Prod.mk.injEq] at h
      obtain ⟨hst, hrecs⟩ := h
      subst hst hrecs
      refine ⟨rfl, fun p pid ms child incl hmem => ?_⟩
      rcases List.mem_cons.mp hmem with h1 | hmem2
      · cases h1
      · rcases List.mem_append.mp hmem2 with h2 | h3
        · exact insertParents_pid _ _ _ _ _ p pid ms child incl h2
        · exact absurd h3 (insertPayload_no_parent _ _ _ _ _ _ hp p pid ms child incl)
  · intro st meta st' recs h
    simp only [insertMessageMetadata, Prod.mk.injEq] at h
    obtain ⟨hst, hrecs⟩ := h
    subst hst hrecs
    refine ⟨rfl, fun p pid ms child incl hmem => ?_⟩
    rcases List.mem_cons.mp hmem with h1 | h2
    · cases h1
    · exact insertParents_pid _ _ _ _ _ p pid ms child incl h2

/-- Witness for C5: the amended theorem applied to a concrete state and
message on the `insert_message` and `insert_message_with_metadata`
paths. -/
theorem collectorParentPartitionsWitness :
    (8 : Nat) = partitionId ⟨1, 10⟩ (u32add 7 1) ∧
    (7 : Nat) = partitionId ⟨1, 10⟩ 7 :=
  ⟨((collectorParentPartitions.1 ⟨7, [], ⟨1, 10⟩⟩ 1 ⟨[3], none⟩
      ⟨7, [], ⟨1, 10⟩⟩ [.msgRow 1, .parent 3 8 8 1 none] rfl).2
      3 8 8 1 none (by simp)).1,
   ((collectorParentPartitions.2.1 ⟨7, [], ⟨1, 10⟩⟩ 1 ⟨[3], none⟩ ⟨1, [3], some 7, none⟩
      ⟨7, [], ⟨1, 10⟩⟩ [.msgWithMetaRow 1, .parent 3 7 7 1 none] rfl).2
      3 7 7 1 none (by simp)).1⟩

/-- Counterexample for C5: with `est_ms = 7`, chunk size 1 and 10
partitions, `insert_message_with_metadata` (metadata joining an
already-cached message body) writes the parent record under partition
`partitioner(7) = 7`, not under `partitioner(est_ms + 1) = 8` as the claim
states for every insert path. -/
theorem collectorParentNotOffsetOnJoin :
    insertMessageWithMetadata ⟨7, [], ⟨1, 10⟩⟩ 1 ⟨[3], none⟩ ⟨1, [3], some 7, none⟩
      = some (⟨7, [], ⟨1, 10⟩⟩, [.msgWithMetaRow 1, .parent 3 7 7 1 none]) ∧
    partitionId ⟨1, 10⟩ (u32add 7 1) = 8 ∧ (7 : Nat) ≠ 8 := by
  exact ⟨rfl, rfl, by decide⟩

/-- The dispatch loop never signals range exhaustion with zero pending when
it starts on a non-exhausted range or positive pending, and it preserves
the range's endpoint. -/
theorem dispatchLoop_no_exhaust (sc : Nat) :
    ∀ (c : Nat) (r : GapRange) (p : Nat), (r.start < r.stop ∨ 0 < p) →
      (dispatchLoop sc c r p).2.2.2 = false ∧
      (dispatchLoop sc c r p).2.1.stop = r.stop := by
  intro c
  induction c with
  | zero => intro r p h; exact ⟨rfl, rfl⟩
  | succ c ih =>
    intro r p h
    by_cases hlt : r.start < r.stop
    · have ih' := ih { r with start := r.start + 1 } (p + 1) (Or.inr (Nat.succ_pos p))
      rcases hD : dispatchLoop sc c { r with start := r.start + 1 } (p + 1) with
        ⟨sends, r2, p2, ex⟩
      rw [hD] at ih'
      have hEq : dispatchLoop sc (c + 1) r p =
          (((r.start % sc, r.start)) :: sends, r2, p2, ex) := by
        simp only [dispatchLoop, if_pos hlt, hD]
      rw [hEq]
      exact ih'
    · rcases h with h | h
      · exact absurd h hlt
      · have hEq : dispatchLoop sc (c + 1) r p = ([], r, p, p == 0) := by
          simp only [dispatchLoop, if_neg hlt]
        rw [hEq]
        exact ⟨by simpa using Nat.pos_iff_ne_zero.mp h, rfl⟩

/-- After `process_more` on a state whose active range is a non-exhausted
`Complete` range, the active range is still a `Complete` range with the
same endpoint, and `next` is unchanged. -/
theorem processMoreF_keeps_active (fuel : Nat) (s : SyncerSt) (r : GapRange)
    (ha : s.active = some (.complete r)) (hr : r.start < r.stop) :
    (∃ c, (processMoreF fuel s).1.active = some (.complete ⟨c, r.stop⟩)) ∧
    (processMoreF fuel s).1.next = s.next := by
  cases fuel with
  | zero =>
    refine ⟨⟨r.start, ?_⟩, rfl⟩
    show s.active = some (.complete ⟨r.start, r.stop⟩)
    rw [ha]
  | succ fuel =>
    have hd := dispatchLoop_no_exhaust s.solidifierCount s.solidifierCount r s.pending
      (Or.inl hr)
    rw [processMoreF, ha]
    rcases hD : dispatchLoop s.solidifierCount s.solidifierCount r s.pending with
      ⟨sends, r', p', ex⟩
    rw [hD] at hd
    simp only at hd
    simp only [hD]
    have hex : ¬ (ex = true) := by rw [hd.1]; simp
    rw [if_neg hex]
    refine ⟨⟨r'.start, ?_⟩, rfl⟩
    show some (ActiveRange.complete r') = some (.complete ⟨r'.start, r.stop⟩)
    rw [← hd.2]

/-- After `process_more` on a state whose active range is a non-exhausted
`FillGaps` range, the active range is still a `FillGaps` range with the
same endpoint, and `next` is unchanged. -/
theorem processMoreF_keeps_active_gaps (fuel : Nat) (s : SyncerSt) (r : GapRange)
    (ha : s.active = some (.fillGaps r)) (hr : r.start < r.stop) :
    (∃ c, (processMoreF fuel s).1.active = some (.fillGaps ⟨c, r.stop⟩)) ∧
    (processMoreF fuel s).1.next = s.next := by
  cases fuel with
  | zero =>
    refine ⟨⟨r.start, ?_⟩, rfl⟩
    show s.active = some (.fillGaps ⟨r.start, r.stop⟩)
    rw [ha]
  | succ fuel =>
    have hd := dispatchLoop_no_exhaust s.solidifierCount s.solidifierCount r s.pending
      (Or.inl hr)
    rw [processMoreF, ha]
    rcases hD : dispatchLoop s.solidifierCount s.solidifierCount r s.pending with
      ⟨sends, r', p', ex⟩
    rw [hD] at hd
    simp only at hd
    simp only [hD]
    have hex : ¬ (ex = true) := by rw [hd.1]; simp
    rw [if_neg hex]
    refine ⟨⟨r'.start, ?_⟩, rfl⟩
    show some (ActiveRange.fillGaps r') = some (.fillGaps ⟨r'.start, r.stop⟩)
    rw [← hd.2]

/-- C6 (amended): when the syncer handles `Ask(Complete)` (`Ask(FillGaps)`)
with no active range and the lowest selected uncomplete (gap) range has
end `i32::MAX as u32` — not `u32::MAX` as the claim states, see the
counterexample — that range is the open-ended tail: its end is clamped to
`highest` and it becomes the active range with `next` at its start, except
that no range becomes active when `highest ≤ start` (the range having
nevertheless been consumed from the sync data). -/
theorem syncTailClamp :
    (∀ (fuel : Nat) (s : SyncerSt) (gap : GapRange) (rest : List GapRange),
        s.active = none →
        takeLowestRange s.syncData.uncompleteList = some (gap, rest) →
        gap.stop = i32MaxU32 →
        ((s.highest ≤ gap.start → (completeF (fuel + 1) s).1.active = none) ∧
         (gap.start < s.highest →
            (∃ c, (completeF (fuel + 1) s).1.active = some (.complete ⟨c, s.highest⟩)) ∧
            (completeF (fuel + 1) s).1.next = gap.start))) ∧
    (∀ (fuel : Nat) (s : SyncerSt) (gap : GapRange) (rest : List GapRange),
        s.active = none →
        takeLowestRange s.syncData.gapList = some (gap, rest) →
        gap.stop = i32MaxU32 →
        ((s.highest ≤ gap.start → (fillGapsF (fuel + 1) s).1.active = none) ∧
         (gap.start < s.highest →
            (∃ c, (fillGapsF (fuel + 1) s).1.active = some (.fillGaps ⟨c, s.highest⟩)) ∧
            (fillGapsF (fuel + 1) s).1.next = gap.start))) := by
  constructor
  · intro fuel s gap rest ha htake hstop
    constructor
    · intro hle
      have h1 : ¬ (gap.stop ≠ i32MaxU32) := by simp [hstop]
      have h2 : ¬ (s.highest > gap.start) := by omega
      simp only [completeF, htake, if_neg h1, if_neg h2]
      exact ha
    · intro hlt
      have h1 : ¬ (gap.stop ≠ i32MaxU32) := by simp [hstop]
      simp only [completeF, htake, if_neg h1, if_pos (show s.highest > gap.start from hlt)]
      split
      · refine ⟨(processMoreF_keeps_active fuel _ ⟨gap.start, s.highest⟩ rfl hlt).1, ?_⟩
        exact (processMoreF_keeps_active fuel _ ⟨gap.start, s.highest⟩ rfl hlt).2
      · exact ⟨⟨gap.start, rfl⟩, rfl⟩
  · intro fuel s gap rest ha htake hstop
    constructor
    · intro hle
      have h1 : ¬ (gap.stop ≠ i32MaxU32) := by simp [hstop]
      have h2 : ¬ (s.highest > gap.start) := by omega
      simp only [fillGapsF, htake, if_neg h1, if_neg h2]
      exact ha
    · intro hlt
      have h1 : ¬ (gap.stop ≠ i32MaxU32) := by simp [hstop]
      simp only [fillGapsF, htake, if_neg h1, if_pos (show s.highest > gap.start from hlt)]
      split
      · refine ⟨(processMoreF_keeps_active_gaps fuel _ ⟨gap.start, s.highest⟩ rfl hlt).1, ?_⟩
        exact (processMoreF_keeps_active_gaps fuel _ ⟨gap.start, s.highest⟩ rfl hlt).2
      · exact ⟨⟨gap.start, rfl⟩, rfl⟩

/-- Witness for C6: the amended theorem applied to a refused and a clamped
concrete tail range (end `i32::MAX as u32`). -/
theorem syncTailClampWitness :
    (completeF 1 ⟨5, 3, 0, [], none, ⟨[⟨5, 2147483647⟩], []⟩, 2, false⟩).1.active = none ∧
    (fillGapsF 1 ⟨5, 10, 0, [], none, ⟨[], [⟨5, 2147483647⟩]⟩, 2, false⟩).1.next = 5 :=
  ⟨(syncTailClamp.1 0 ⟨5, 3, 0, [], none, ⟨[⟨5, 2147483647⟩], []⟩, 2, false⟩
      ⟨5, 2147483647⟩ [] rfl rfl rfl).1 (by decide),
   ((syncTailClamp.2 0 ⟨5, 10, 0, [], none, ⟨[], [⟨5, 2147483647⟩]⟩, 2, false⟩
      ⟨5, 2147483647⟩ [] rfl rfl rfl).2 (by decide)).2⟩

/-- Counterexample for C6: a lowest uncomplete range ending at `u32::MAX`
(4294967295) with `highest = 3 ≤ start = 5`.  The claim says such a range
is the open-ended tail and the request must be refused; the code's tail
sentinel is `i32::MAX as u32` (2147483647), so it treats this range as an
ordinary one and activates it unclamped instead of refusing. -/
theorem syncTailSentinelMismatch :
    (completeF 5 ⟨5, 3, 0, [], none, ⟨[⟨5, 4294967295⟩], []⟩, 2, false⟩).1.active
      = some (.complete ⟨5, 4294967295⟩) ∧
    some (ActiveRange.complete ⟨5, 4294967295⟩) ≠ none ∧
    (4294967295 : Nat) = 2 ^ 32 - 1 := by
  refine ⟨rfl, by simp, by norm_num⟩

/-- Specification of the `max_by_key` fold over hint entries, with an
explicit accumulator: the fold yields a maximal element (the accumulator or
a list element). -/
theorem maxByKeyFold_spec (l : List (Nat × Nat)) :
    ∀ a : Nat × Nat,
      ∃ m, List.foldl (fun acc e => match acc with
          | none => some e
          | some mm => if mm.1 ≤ e.1 then some e else some mm) (some a) l = some m ∧
        (m = a ∨ m ∈ l) ∧ a.1 ≤ m.1 ∧ ∀ x ∈ l, x.1 ≤ m.1 := by
  induction l with
  | nil => exact fun a => ⟨a, rfl, Or.inl rfl, le_refl _, by simp⟩
  | cons e t ih =>
    intro a
    rw [List.foldl_cons]
    by_cases h : a.1 ≤ e.1
    · obtain ⟨m, hm, hmem, hle, hall⟩ := ih e
      refine ⟨m, ?_, Or.inr ?_, le_trans h hle, ?_⟩
      · rw [← hm]
        congr 1
        simp [h]
      · rcases hmem with h' | h'
        · exact h' ▸ List.mem_cons_self e t
        · exact List.mem_cons_of_mem e h'
      · intro x hx
        rcases List.mem_cons.mp hx with h' | h'
        · exact h' ▸ hle
        · exact hall x h'
    · obtain ⟨m, hm, hmem, hle, hall⟩ := ih a
      refine ⟨m, ?_, ?_, hle, ?_⟩
      · rw [← hm]
        congr 1
        simp [h]
      · rcases hmem with h' | h'
        · exact Or.inl h'
        · exact Or.inr (List.mem_cons_of_mem e h')
      · intro x hx
        rcases List.mem_cons.mp hx with h' | h'
        · subst h'
          omega
        · exact hall x h'

/-- Applying `maxByKeyLast` to a non-empty list yields a maximal element of the
list. -/
theorem maxByKeyLast_spec (l : List (Nat × Nat)) (hne : l ≠ []) :
    ∃ m, maxByKeyLast l = some m ∧ m ∈ l ∧ ∀ x ∈ l, x.1 ≤ m.1 := by
  match l with
  | [] => exact absurd rfl hne
  | e :: t =>
    obtain ⟨m, hm, hmem, -, hall⟩ := maxByKeyFold_spec t e
    refine ⟨m, ?_, ?_, ?_⟩
    · rw [maxByKeyLast, List.foldl_cons]
      exact hm
    · rcases hmem with h' | h'
      · exact h' ▸ List.mem_cons_self e t
      · exact List.mem_cons_of_mem e h'
    · intro x hx
      rcases List.mem_cons.mp hx with h' | h'
      · obtain ⟨m', hm', hmem', hle', hall'⟩ := maxByKeyFold_spec t e
        rw [hm] at hm'
        cases hm'
        exact h' ▸ hle'
      · exact hall x h'

/-- A successful `findIdx?` returns an in-range index whose element
satisfies the predicate (with an explicit start offset). -/
theorem findIdx?_some_spec (p : Nat × Nat → Bool) :
    ∀ (l : List (Nat × Nat)) (s j : Nat), List.findIdx? p l s = some j →
      s ≤ j ∧ ∃ y, l.get? (j - s) = some y ∧ p y = true := by
  intro l
  induction l with
  | nil => intro s j h; simp [List.findIdx?] at h
  | cons a t ih =>
    intro s j h
    rw [List.findIdx?_cons] at h
    by_cases hpa : p a = true
    · rw [if_pos hpa] at h
      cases h
      exact ⟨le_refl _, a, by simp, hpa⟩
    · rw [if_neg hpa] at h
      obtain ⟨hs, y, hy, hpy⟩ := ih (s + 1) j h
      refine ⟨by omega, y, ?_, hpy⟩
      have : j - s = (j - (s + 1)) + 1 := by omega
      rw [this]
      simpa using hy

/-- C2: on the first page of a session `page` takes `latest_milestone` as
the maximum milestone over the hint entries, cyclically rotates the
partition list (`drop i ++ take i`, a rotation preserving relative order,
not a sort) so that it begins at the first entry whose partition id is the
one carrying that maximum, and persists exactly the rotated list in the
fresh cookie. -/
theorem pageSetupRotatesToLatest :
    ∀ (entries : List (Nat × Nat)) (latest firstPid i : Nat),
      maxByKeyLast entries = some (latest, firstPid) →
      List.findIdx? (fun e => e.2 == firstPid) entries = some i →
      pageSetup entries none =
        .ok (latest, entries.drop i ++ entries.take i,
             ⟨none, none, none, entries.drop i ++ entries.take i⟩) ∧
      entries.IsRotated (entries.drop i ++ entries.take i) ∧
      (entries.drop i ++ entries.take i).head?.map Prod.snd = some firstPid ∧
      (latest, firstPid) ∈ entries ∧
      (∀ e ∈ entries, e.1 ≤ latest) := by
  intro entries latest firstPid i hmax hfind
  have hne : entries ≠ [] := by
    intro h
    subst h
    exact absurd hmax (by simp [maxByKeyLast])
  obtain ⟨hs, y, hy, hpy⟩ := findIdx?_some_spec _ entries 0 i hfind
  rw [Nat.sub_zero] at hy
  have hilt : i < entries.length := by
    rcases List.get?_eq_some.mp hy with ⟨hlt, -⟩
    exact hlt
  obtain ⟨m, hm, hmem, hall⟩ := maxByKeyLast_spec entries hne
  rw [hmax] at hm
  cases hm
  refine ⟨?_, ?_, ?_, hmem, hall⟩
  · simp only [pageSetup, hmax, hfind]
    rw [if_neg (by simpa [List.isEmpty_iff] using hne)]
    rfl
  · exact ⟨i, by rw [List.rotate_eq_drop_append_take (le_of_lt hilt)]⟩
  · have hhead : (entries.drop i).head? = some y := by
      rw [List.head?_drop]
      rw [← List.get?_eq_getElem?]
      exact hy
    have hdropne : entries.drop i ≠ [] := by
      intro h
      rw [h] at hhead
      exact Option.noConfusion hhead
    match hD : entries.drop i with
    | [] => exact absurd hD hdropne
    | z :: zs =>
      rw [hD] at hhead
      simp only [List.head?] at hhead
      cases hhead
      simp only [List.cons_append, List.head?, Option.map]
      have : y.2 = firstPid := by simpa using hpy
      rw [this]

/-- Witness for C2: the theorem applied to the hint entries
`[(3,1), (9,2), (5,7)]`, whose maximum milestone 9 lives on partition 2 at
position 1. -/
theorem pageSetupRotatesToLatestWitness :
    pageSetup [(3, 1), (9, 2), (5, 7)] none =
      .ok (9, [(9, 2), (5, 7), (3, 1)], ⟨none, none, none, [(9, 2), (5, 7), (3, 1)]⟩) ∧
    ([(3, 1), (9, 2), (5, 7)] : List (Nat × Nat)).IsRotated [(9, 2), (5, 7), (3, 1)] :=
  ⟨(pageSetupRotatesToLatest [(3, 1), (9, 2), (5, 7)] 9 2 1 rfl rfl).1,
   (pageSetupRotatesToLatest [(3, 1), (9, 2), (5, 7)] 9 2 1 rfl rfl).2.1⟩

/-- Membership in the heap after an ordered insert. -/
theorem mem_pushHeap (m : Nat) (l : List Nat) (x : Nat) :
    x ∈ pushHeap m l ↔ x = m ∨ x ∈ l := by
  induction l with
  | nil => simp [pushHeap]
  | cons h t ih =>
    simp only [pushHeap]
    split
    · simp [List.mem_cons]
    · simp only [List.mem_cons, ih]
      tauto

/-- Ordered insert preserves the ascending sort of the heap. -/
theorem pushHeap_sorted (m : Nat) (l : List Nat) (h : List.Sorted (· ≤ ·) l) :
    List.Sorted (· ≤ ·) (pushHeap m l) := by
  induction l with
  | nil => simp [pushHeap]
  | cons a t ih =>
    rw [List.sorted_cons] at h
    obtain ⟨ha, ht⟩ := h
    simp only [pushHeap]
    split
    · rename_i hma
      rw [List.sorted_cons]
      refine ⟨?_, by rw [List.sorted_cons]; exact ⟨ha, ht⟩⟩
      intro b hb
      rcases List.mem_cons.mp hb with h' | h'
      · omega
      · exact le_trans hma (ha b h')
    · rename_i hma
      rw [List.sorted_cons]
      refine ⟨?_, ih ht⟩
      intro b hb
      rcases (mem_pushHeap m t b).mp hb with h' | h'
      · omega
      · exact ha b h'

/-- Specification of the steady-state heap drain: on a sorted heap of
positive `u32` values, the forwarded indexes are exactly the contiguous
ascending run starting at `next`; the final `next` is the wrapped
increment chain, and the remaining heap keeps the sort and the bounds. -/
theorem drainHeap_spec :
    ∀ (heap : List Nat) (next : Nat),
      List.Sorted (· ≤ ·) heap →
      (∀ x ∈ heap, 0 < x ∧ x < 4294967296) →
      next < 4294967296 →
      (drainHeap heap next).1 = List.range' next (drainHeap heap next).1.length ∧
      (drainHeap heap next).2.2 = (next + (drainHeap heap next).1.length) % 4294967296 ∧
      List.Sorted (· ≤ ·) (drainHeap heap next).2.1 ∧
      (∀ x ∈ (drainHeap heap next).2.1, 0 < x ∧ x < 4294967296) ∧
      (∀ x ∈ (drainHeap heap next).1, 0 < x ∧ x < 4294967296) := by
  intro heap
  induction heap with
  | nil =>
    intro next hs hb hn
    refine ⟨rfl, ?_, by simp [drainHeap], by simp [drainHeap], by simp [drainHeap]⟩
    show next = (next + List.length []) % 4294967296
    simpa using (Nat.mod_eq_of_lt hn).symm
  | cons m t ih =>
    intro next hs hb hn
    rw [List.sorted_cons] at hs
    obtain ⟨hmt, hts⟩ := hs
    have hbm := hb m (List.mem_cons_self m t)
    have hbt : ∀ x ∈ t, 0 < x ∧ x < 4294967296 :=
      fun x hx => hb x (List.mem_cons_of_mem m hx)
    by_cases hm : m = next
    · subst hm
      by_cases hw : m + 1 < 4294967296
      · have hEq : drainHeap (m :: t) m =
            ((m :: (drainHeap t (m + 1)).1, (drainHeap t (m + 1)).2.1,
              (drainHeap t (m + 1)).2.2)) := by
          rcases hD : drainHeap t (u32add m 1) with ⟨sent, heap2, next2⟩
          have hu : u32add m 1 = m + 1 := Nat.mod_eq_of_lt hw
          rw [hu] at hD
          simp only [drainHeap, if_pos rfl, u32add, hD]
          have h1 : (m + 1) % 4294967296 = m + 1 := Nat.mod_eq_of_lt hw
          rw [h1, hD]
          simp
        obtain ⟨ih1, ih2, ih3, ih4, ih5⟩ := ih (m + 1) hts hbt hw
        rw [hEq]
        refine ⟨?_, ?_, ih3, ih4, ?_⟩
        · show m :: (drainHeap t (m + 1)).1 =
            List.range' m (m :: (drainHeap t (m + 1)).1).length
          rw [List.length_cons, List.range'_succ]
          rw [← ih1]
        · show (drainHeap t (m + 1)).2.2 =
            (m + (m :: (drainHeap t (m + 1)).1).length) % 4294967296
          rw [ih2, List.length_cons]
          congr 1
          omega
        · intro x hx
          rcases List.mem_cons.mp hx with h' | h'
          · exact h' ▸ hbm
          · exact ih5 x h'
      · have hmW : m + 1 = 4294967296 := by omega
        have hu : u32add m 1 = 0 := by rw [u32add, hmW]
        have hdt : drainHeap t 0 = ([], t, 0) := by
          cases t with
          | nil => rfl
          | cons b ts =>
            have hbpos := (hbt b (List.mem_cons_self b ts)).1
            rw [drainHeap, if_neg (by omega)]
        have hEq : drainHeap (m :: t) m = ([m], t, 0) := by
          rw [drainHeap, if_pos rfl, hu, hdt]
        rw [hEq]
        refine ⟨?_, ?_, hts, hbt, ?_⟩
        · show [m] = List.range' m [m].length
          rfl
        · show (0 : Nat) = (m + [m].length) % 4294967296
          rw [List.length_singleton, hmW]
        · intro x hx
          rcases List.mem_cons.mp hx with h' | h'
          · exact h' ▸ hbm
          · simp at h'
    · have hEq : drainHeap (m :: t) next = ([], m :: t, next) := by
        rw [drainHeap, if_neg hm]
      rw [hEq]
      refine ⟨rfl, ?_, by rw [List.sorted_cons]; exact ⟨hmt, hts⟩, hb, by simp⟩
      show next = (next + List.length []) % 4294967296
      simpa using (Nat.mod_eq_of_lt hn).symm

/-- Reduction of `handle_milestone_data` on the steady-state branch
(`highest ≠ 0`, no underflow): decrement `pending`, push, drain, then
trigger `process_more`. -/
theorem handleSteadyEq (fuel : Nat) (s : SyncerSt) (ms : Nat)
    (hh : s.highest ≠ 0) (hp : s.pending ≠ 0) :
    handleMilestoneData fuel s ms =
      some ((triggerProcessMore fuel
        { s with pending := s.pending - 1,
                 heap := (drainHeap (pushHeap ms s.heap) s.next).2.1,
                 next := (drainHeap (pushHeap ms s.heap) s.next).2.2 }).1,
        (drainHeap (pushHeap ms s.heap) s.next).1,
        (triggerProcessMore fuel
        { s with pending := s.pending - 1,
                 heap := (drainHeap (pushHeap ms s.heap) s.next).2.1,
                 next := (drainHeap (pushHeap ms s.heap) s.next).2.2 }).2) := by
  rcases hD : drainHeap (pushHeap ms s.heap) s.next with ⟨sent, heap2, next2⟩
  have c1 : (s.pending == 0) = false := by simpa using hp
  have c2 : (s.highest == 0) = false := by simpa using hh
  have c3 : (s.highest != 0) = true := by simpa using hh
  simp only [handleMilestoneData, c1, c2, c3, hD, Bool.false_and, Bool.false_eq_true,
    if_false, if_true]

/-- C3 helper: facts about one steady-state `handle_milestone_data` call on
a well-formed state: the archiver receives exactly the contiguous run
starting at `next`; when at least one more event is pending afterwards the
trigger does not fire and the state invariants carry over. -/
theorem handleSteadyFacts (fuel : Nat) (s : SyncerSt) (ms : Nat)
    (hh : s.highest ≠ 0) (hp : 1 ≤ s.pending)
    (hsort : List.Sorted (· ≤ ·) s.heap)
    (hbnd : ∀ x ∈ s.heap, 0 < x ∧ x < 4294967296)
    (hms : 0 < ms ∧ ms < 4294967296) (hnext : s.next < 4294967296) :
    ∃ s' sent sol,
      handleMilestoneData fuel s ms = some (s', sent, sol) ∧
      sent = List.range' s.next sent.length ∧
      (∀ x ∈ sent, 0 < x ∧ x < 4294967296) ∧
      (2 ≤ s.pending →
        s'.highest = s.highest ∧ s'.pending = s.pending - 1 ∧
        s'.next = (s.next + sent.length) % 4294967296 ∧ s'.next < 4294967296 ∧
        List.Sorted (· ≤ ·) s'.heap ∧
        (∀ x ∈ s'.heap, 0 < x ∧ x < 4294967296)) := by
  have hkey := handleSteadyEq fuel s ms hh (by omega)
  have hps : List.Sorted (· ≤ ·) (pushHeap ms s.heap) := pushHeap_sorted ms s.heap hsort
  have hpb : ∀ x ∈ pushHeap ms s.heap, 0 < x ∧ x < 4294967296 := by
    intro x hx
    rcases (mem_pushHeap ms s.heap x).mp hx with h' | h'
    · exact h' ▸ hms
    · exact hbnd x h'
  have hd := drainHeap_spec (pushHeap ms s.heap) s.next hps hpb hnext
  refine ⟨_, _, _, hkey, hd.1, hd.2.2.2.2, ?_⟩
  intro h2
  have htr : triggerProcessMore fuel
      { s with pending := s.pending - 1,
               heap := (drainHeap (pushHeap ms s.heap) s.next).2.1,
               next := (drainHeap (pushHeap ms s.heap) s.next).2.2 } =
      ({ s with pending := s.pending - 1,
                heap := (drainHeap (pushHeap ms s.heap) s.next).2.1,
                next := (drainHeap (pushHeap ms s.heap) s.next).2.2 }, []) := by
    rw [triggerProcessMore, if_neg (by simp; omega)]
  rw [htr]
  refine ⟨rfl, rfl, hd.2.1, ?_, hd.2.2.1, hd.2.2.2.1⟩
  show (drainHeap (pushHeap ms s.heap) s.next).2.2 < 4294967296
  rw [hd.2.1]
  exact Nat.mod_lt _ (by omega)

/-- Unfolding of `runSyncer` over one successfully handled event. -/
theorem runSyncer_cons (fuel : Nat) (s : SyncerSt) (e : Nat) (es : List Nat)
    (s1 : SyncerSt) (sent1 : List Nat) (sol1 : List (Nat × Nat)) (s2 : SyncerSt)
    (sent2 : List Nat)
    (h1 : handleMilestoneData fuel s e = some (s1, sent1, sol1))
    (h2 : runSyncer fuel s1 es = some (s2, sent2)) :
    runSyncer fuel s (e :: es) = some (s2, sent1 ++ sent2) := by
  simp only [runSyncer, h1, h2]

/-- C3: within one processed active range, the milestone indexes the
syncer forwards to the archiver are strictly ascending with step 1 and
start at `next`: over any steady-state run (`highest ≠ 0`, enough pending
events, sorted heap of positive `u32` indexes), the concatenated archiver
deliveries equal `List.range' next k` — no duplicate, no gap.  (`complete`
sets `next` to the active range's start, so the run starts there.) -/
theorem syncerArchiverAscending :
    ∀ (events : List Nat) (fuel : Nat) (s : SyncerSt),
      s.highest ≠ 0 → events.length ≤ s.pending →
      List.Sorted (· ≤ ·) s.heap →
      (∀ x ∈ s.heap, 0 < x ∧ x < 4294967296) →
      (∀ e ∈ events, 0 < e ∧ e < 4294967296) →
      s.next < 4294967296 →
      ∃ s' sent, runSyncer fuel s events = some (s', sent) ∧
        sent = List.range' s.next sent.length ∧
        (∀ x ∈ sent, 0 < x ∧ x < 4294967296) := by
  intro events
  induction events with
  | nil => exact fun fuel s h1 h2 h3 h4 h5 h6 => ⟨s, [], rfl, rfl, by simp⟩
  | cons e es ih =>
    intro fuel s h1 h2 h3 h4 h5 h6
    have he := h5 e (List.mem_cons_self e es)
    have hp1 : 1 ≤ s.pending := by
      have := h2
      simp only [List.length_cons] at this
      omega
    obtain ⟨s1, sent1, sol1, hrun1, hsent1, hb1, hcond⟩ :=
      handleSteadyFacts fuel s e h1 hp1 h3 h4 he h6
    cases es with
    | nil =>
      refine ⟨s1, sent1 ++ [], ?_, ?_, ?_⟩
      · exact runSyncer_cons fuel s e [] s1 sent1 sol1 s1 [] hrun1 rfl
      · simpa using hsent1
      · simpa using hb1
    | cons e2 es2 =>
      have hp2 : 2 ≤ s.pending := by
        have := h2
        simp only [List.length_cons] at this
        omega
      obtain ⟨hhi, hpend, hnext', hnlt, hsort1, hbh1⟩ := hcond hp2
      have ih' := ih fuel s1 (by rw [hhi]; exact h1)
        (by rw [hpend]; have := h2; simp only [List.length_cons] at this ⊢; omega)
        hsort1 hbh1 (fun x hx => h5 x (List.mem_cons_of_mem e hx)) hnlt
      obtain ⟨s2, sent2, hrun2, hsent2, hb2⟩ := ih'
      refine ⟨s2, sent1 ++ sent2, ?_, ?_, ?_⟩
      · exact runSyncer_cons fuel s e (e2 :: es2) s1 sent1 sol1 s2 sent2 hrun1 hrun2
      · by_cases hw : s.next + sent1.length < 4294967296
        · have hn1 : s1.next = s.next + sent1.length := by
            rw [hnext']
            exact Nat.mod_eq_of_lt hw
          have hlen : (sent1 ++ sent2).length = sent2.length + sent1.length := by
            rw [List.length_append]
            omega
          have happ := List.range'_append s.next sent1.length sent2.length 1
          rw [one_mul] at happ
          conv_lhs => rw [hsent1, hsent2, hn1]
          rw [hlen, happ]
        · have hlen1 : sent1.length ≠ 0 := by
            intro hz
            rw [hz] at hw
            omega
          have hlast : s.next + (sent1.length - 1) ∈ sent1 := by
            have hmem : s.next + (sent1.length - 1) ∈ List.range' s.next sent1.length :=
              List.mem_range'.mpr ⟨sent1.length - 1, by omega, by omega⟩
            rw [← hsent1] at hmem
            exact hmem
          have hlastW : s.next + (sent1.length - 1) < 4294967296 := (hb1 _ hlast).2
          have hWeq : s.next + sent1.length = 4294967296 := by omega
          have hn0 : s1.next = 0 := by
            rw [hnext', hWeq]
          have hlen2 : sent2.length = 0 := by
            by_contra hne
            have h0mem : (0 : Nat) ∈ sent2 := by
              rw [hsent2, hn0]
              exact List.mem_range'.mpr ⟨0, by omega, by omega⟩
            exact absurd (hb2 0 h0mem).1 (by omega)
          have hsent2nil : sent2 = [] := List.length_eq_zero.mp hlen2
          rw [hsent2nil, List.append_nil]
          exact hsent1
      · intro x hx
        rcases List.mem_append.mp hx with h' | h'
        · exact hb1 x h'
        · exact hb2 x h'

/-- Witness for C3: the run theorem applied to a concrete steady state:
with `next = 6` and events `[7, 6]`, the heap holds 7 back until 6
arrives, and the archiver receives exactly `[6, 7] = range' 6 2`. -/
theorem syncerArchiverAscendingWitness :
    ∃ s' sent, runSyncer 5 ⟨2, 5, 6, [], none, ⟨[], []⟩, 2, false⟩ [7, 6]
        = some (s', sent) ∧
      sent = List.range' 6 sent.length ∧
      (∀ x ∈ sent, 0 < x ∧ x < 4294967296) :=
  syncerArchiverAscending [7, 6] 5 ⟨2, 5, 6, [], none, ⟨[], []⟩, 2, false⟩
    (by decide) (by decide) (by simp) (by simp) (by decide) (by decide)

/-- C1 (amended): the spill-over rule of the paging engine's peel loop, and
what it does and does not guarantee.  Part one: once the results list has
reached `page_size`, a further row from the current partition is still
appended whenever its milestone index equals the last milestone index
recorded for that partition in `last_index_map`.  Part two: whenever the
peel loop cuts a page because the page is full and the head row's
milestone differs (the "finished a milestone" return, `cut = true`), the
remaining buffer's head differs from the partition's last recorded
milestone, so — the buffer being milestone-descending — no remaining
buffered row shares a milestone with an emitted one.  The claim's stronger
conclusion, that a page can never end between two records of one
milestone, fails at the empty-buffer return (see the counterexample): a
page may end inside a milestone when the row buffer is exhausted with
`page_size` results, resumption going through the storage paging state. -/
theorem peelSpillAndCut :
    (∀ (env : PageEnv) (depleted : List Nat) (pid fuel : Nat) (rest : List Nat)
        (ps : Option Nat) (results : List Nat) (st : StateData)
        (lastIdx : List (Nat × Nat)) (log : List QueryRec) (r : Nat),
        (alFind lastIdx pid).getD 0 = r →
        env.pageSize ≤ results.length →
        peel env depleted pid (fuel + 1) ⟨r :: rest, ps⟩ results st lastIdx log =
          peel env depleted pid fuel ⟨rest, ps⟩ (results ++ [r]) st lastIdx log) ∧
    (∀ (env : PageEnv) (depleted : List Nat) (pid fuel : Nat) (buf : PagedBuf)
        (results : List Nat) (st : StateData) (lastIdx : List (Nat × Nat))
        (log : List QueryRec) (results' : List Nat) (st' : StateData)
        (lastIdx' : List (Nat × Nat)) (log' : List QueryRec) (rem : List Nat),
        peel env depleted pid fuel buf results st lastIdx log =
          .done results' st' lastIdx' log' rem true →
        ∃ h t, rem = h :: t ∧ h ≠ (alFind lastIdx' pid).getD 0 ∧
          st'.lastMilestoneIndex = some h ∧ st'.lastPartitionId = some pid ∧
          (List.Sorted (· ≥ ·) rem → h ≤ (alFind lastIdx' pid).getD 0 →
            ∀ x ∈ rem, x < (alFind lastIdx' pid).getD 0)) := by
  constructor
  · intro env depleted pid fuel rest ps results st lastIdx log r h1 h2
    have hc : (r / env.chunk == r / env.chunk) = true := beq_self_eq_true _
    have hr : (r == r) = true := beq_self_eq_true _
    simp only [peel, h1, hc, hr, if_true, ge_iff_le, if_pos h2]
  · intro env depleted pid fuel
    induction fuel with
    | zero =>
      intro buf results st lastIdx log results' st' lastIdx' log' rem h
      exact PeelRes.noConfusion h
    | succ fuel ih =>
      intro buf results st lastIdx log results' st' lastIdx' log' rem h
      obtain ⟨items, ps⟩ := buf
      cases items with
      | nil =>
        simp only [peel] at h
        by_cases hge : results.length ≥ env.pageSize
        · rw [if_pos hge] at h
          simp at h
        · rw [if_neg hge] at h
          cases hps : ps with
          | some p =>
            rw [hps] at h
            exact ih _ _ _ _ _ _ _ _ _ _ h
          | none =>
            rw [hps] at h
            exact PeelRes.noConfusion h
      | cons r rest =>
        simp only [peel] at h
        by_cases hchunk : (r / env.chunk == (alFind lastIdx pid).getD 0 / env.chunk) = true
        · rw [if_pos hchunk] at h
          by_cases hge : results.length ≥ env.pageSize
          · rw [if_pos hge] at h
            by_cases heq : ((alFind lastIdx pid).getD 0 == r) = true
            · rw [if_pos heq] at h
              exact ih _ _ _ _ _ _ _ _ _ _ h
            · rw [if_neg heq] at h
              simp only [PeelRes.done.injEq] at h
              obtain ⟨hres, hst, hlast, hlog, hrem, -⟩ := h
              subst hst hlast hrem
              have hne : r ≠ (alFind lastIdx pid).getD 0 := fun hcontra => heq (by
                rw [hcontra]
                exact beq_self_eq_true _)
              refine ⟨r, rest, rfl, hne, rfl, rfl, ?_⟩
              intro hsort hle x hx
              rw [List.sorted_cons] at hsort
              rcases List.mem_cons.mp hx with h' | h'
              · subst h'
                omega
              · have := hsort.1 x h'
                omega
          · rw [if_neg hge] at h
            exact ih _ _ _ _ _ _ _ _ _ _ h
        · rw [if_neg hchunk] at h
          exact PeelRes.noConfusion h

/-- Witness for C1: the amended theorem applied to a one-partition peel
with page size 1: the spill-over step appends a second row of milestone 9
past the page size, and the subsequent cut at milestone 8 satisfies the
boundary property. -/
theorem peelSpillAndCutWitness :
    peel ⟨[], 100, 1, 0, [], none, none, none⟩ [] 1 2 ⟨[9, 8], none⟩ [50]
        ⟨none, none, none, []⟩ [(1, 9)] [] =
      peel ⟨[], 100, 1, 0, [], none, none, none⟩ [] 1 1 ⟨[8], none⟩ [50, 9]
        ⟨none, none, none, []⟩ [(1, 9)] [] ∧
    ∃ h t, ([8] : List Nat) = h :: t ∧ h ≠ (alFind [(1, 9)] 1).getD 0 ∧
      (⟨some 1, some 8, none, []⟩ : StateData).lastMilestoneIndex = some h ∧
      (⟨some 1, some 8, none, []⟩ : StateData).lastPartitionId = some 1 ∧
      (List.Sorted (· ≥ ·) [8] → h ≤ (alFind [(1, 9)] 1).getD 0 →
        ∀ x ∈ ([8] : List Nat), x < (alFind [(1, 9)] 1).getD 0) :=
  ⟨peelSpillAndCut.1 ⟨[], 100, 1, 0, [], none, none, none⟩ [] 1 1 [8] none [50]
      ⟨none, none, none, []⟩ [(1, 9)] [] 9 rfl (by decide),
   peelSpillAndCut.2 ⟨[], 100, 1, 0, [], none, none, none⟩ [] 1 2 ⟨[9, 8], none⟩ [50]
      ⟨none, none, none, []⟩ [(1, 9)] [] [50, 9] ⟨some 1, some 8, none, []⟩
      [(1, 9)] [] [8] rfl⟩

/-- Counterexample for C1: a session over one partition holding two records
of milestone 5, with `page_size = 1`.  The first page returns only one of
the two milestone-5 records and a continuation cookie (carrying the
storage paging state); the second page returns the other.  The page thus
ends between two records sharing one milestone index, contradicting the
claim that all records of one `ms` value appear in the same page: the
spill-over rule does not fire here because the row buffer is empty (not
non-empty) when the page fills, and the code returns with the storage
paging state instead. -/
theorem pageSplitsMilestoneAcrossPages :
    page [(1, [5, 5])] 100 1 [(5, 1)] 10 none
      = some (.ok ([5], ⟨some 1, some 5, some 1, [(5, 1)]⟩,
          [⟨1, 1, 5, none, true, []⟩])) ∧
    page [(1, [5, 5])] 100 1 [(5, 1)] 10 (some ⟨some 1, some 5, some 1, [(5, 1)]⟩)
      = some (.ok ([5], ⟨some 1, some 5, none, [(5, 1)]⟩,
          [⟨1, 1, 5, some 1, true, []⟩])) ∧
    alFind [(1, [5, 5])] 1 = some [5, 5] :=
  ⟨rfl, rfl, rfl⟩

/-- The fetch-target selection `fetchIds` takes the partition ids at the current and next list
positions: it is the two-element window of the partition list at the
current index, in list order, with no wraparound and no regard to the
depleted set. -/
theorem fetchIds_eq :
    ∀ (l : List (Nat × Nat)) (i : Nat),
      fetchIds l i = ((l.drop i).take 2).map Prod.snd := by
  intro l
  induction l with
  | nil =>
    intro i
    rw [List.drop_nil]
    rfl
  | cons a t ih =>
    intro i
    cases i with
    | zero =>
      cases t with
      | nil => rfl
      | cons b t2 => rfl
    | succ i => exact ih i

/-- The peel loop only ever appends re-query log entries, which are not
prefetch-tagged: every entry of an outcome's log was already in the input
log or is not from a prefetch. -/
theorem peel_log_entries (env : PageEnv) (depleted : List Nat) (pid : Nat) :
    ∀ (fuel : Nat) (buf : PagedBuf) (results : List Nat) (st : StateData)
      (lastIdx : List (Nat × Nat)) (log : List QueryRec),
      (∀ results' st' lastIdx' log' rem cut,
          peel env depleted pid fuel buf results st lastIdx log =
            .done results' st' lastIdx' log' rem cut →
          ∀ q ∈ log', q ∈ log ∨ q.fromPrefetch = false) ∧
      (∀ buf' results' st' lastIdx' log' md,
          peel env depleted pid fuel buf results st lastIdx log =
            .next buf' results' st' lastIdx' log' md →
          ∀ q ∈ log', q ∈ log ∨ q.fromPrefetch = false) := by
  intro fuel
  induction fuel with
  | zero =>
    intro buf results st lastIdx log
    exact ⟨fun _ _ _ _ _ _ h => PeelRes.noConfusion h,
           fun _ _ _ _ _ _ h => PeelRes.noConfusion h⟩
  | succ fuel ih =>
    intro buf results st lastIdx log
    obtain ⟨items, ps⟩ := buf
    cases items with
    | nil =>
      by_cases hge : results.length ≥ env.pageSize
      · constructor
        · intro results' st' lastIdx' log' rem cut h
          simp only [peel, if_pos hge, PeelRes.done.injEq] at h
          obtain ⟨-, -, -, hlog, -, -⟩ := h
          subst hlog
          exact fun q hq => Or.inl hq
        · intro buf' results' st' lastIdx' log' md h
          simp only [peel, if_pos hge] at h
          exact PeelRes.noConfusion h
      · cases ps with
        | some p =>
          have hstep : ∀ res, peel env depleted pid (fuel + 1) ⟨[], some p⟩ results st lastIdx log = res →
              peel env depleted pid fuel
                (selectQ env pid (env.pageSize - results.length) (some p)) results st lastIdx
                (log ++ [⟨pid, env.pageSize - results.length, env.latest, some p, false,
                         depleted⟩]) = res := by
            intro res h
            rw [← h]
            simp only [peel, if_neg hge]
          constructor
          · intro results' st' lastIdx' log' rem cut h
            intro q hq
            rcases (ih _ _ _ _ _).1 _ _ _ _ _ _ (hstep _ h) q hq with hin | hfalse
            · rcases List.mem_append.mp hin with h1 | h2
              · exact Or.inl h1
              · right
                rw [List.mem_singleton.mp h2]
            · exact Or.inr hfalse
          · intro buf' results' st' lastIdx' log' md h
            intro q hq
            rcases (ih _ _ _ _ _).2 _ _ _ _ _ _ (hstep _ h) q hq with hin | hfalse
            · rcases List.mem_append.mp hin with h1 | h2
              · exact Or.inl h1
              · right
                rw [List.mem_singleton.mp h2]
            · exact Or.inr hfalse
        | none =>
          constructor
          · intro results' st' lastIdx' log' rem cut h
            simp only [peel, if_neg hge] at h
            exact PeelRes.noConfusion h
          · intro buf' results' st' lastIdx' log' md h
            simp only [peel, if_neg hge, PeelRes.next.injEq] at h
            obtain ⟨-, -, -, -, hlog, -⟩ := h
            subst hlog
            exact fun q hq => Or.inl hq
    | cons r rest =>
      by_cases hchunk : (r / env.chunk == (alFind lastIdx pid).getD 0 / env.chunk) = true
      · by_cases hge : results.length ≥ env.pageSize
        · by_cases heq : ((alFind lastIdx pid).getD 0 == r) = true
          · have hstep : ∀ res, peel env depleted pid (fuel + 1) ⟨r :: rest, ps⟩ results st lastIdx log = res →
                peel env depleted pid fuel ⟨rest, ps⟩ (results ++ [r]) st lastIdx log = res := by
              intro res h
              rw [← h]
              simp only [peel, if_pos hchunk, if_pos hge, if_pos heq]
            exact ⟨fun _ _ _ _ _ _ h => (ih _ _ _ _ _).1 _ _ _ _ _ _ (hstep _ h),
                   fun _ _ _ _ _ _ h => (ih _ _ _ _ _).2 _ _ _ _ _ _ (hstep _ h)⟩
          · constructor
            · intro results' st' lastIdx' log' rem cut h
              simp only [peel, if_pos hchunk, if_pos hge, if_neg heq,
                PeelRes.done.injEq] at h
              obtain ⟨-, -, -, hlog, -, -⟩ := h
              subst hlog
              exact fun q hq => Or.inl hq
            · intro buf' results' st' lastIdx' log' md h
              simp only [peel, if_pos hchunk, if_pos hge, if_neg heq] at h
              exact PeelRes.noConfusion h
        · have hstep : ∀ res, peel env depleted pid (fuel + 1) ⟨r :: rest, ps⟩ results st lastIdx log = res →
              peel env depleted pid fuel ⟨rest, ps⟩ (results ++ [r]) st
                (alInsert lastIdx pid r) log = res := by
            intro res h
            rw [← h]
            simp only [peel, if_pos hchunk, if_neg hge]
          exact ⟨fun _ _ _ _ _ _ h => (ih _ _ _ _ _).1 _ _ _ _ _ _ (hstep _ h),
                 fun _ _ _ _ _ _ h => (ih _ _ _ _ _).2 _ _ _ _ _ _ (hstep _ h)⟩
      · constructor
        · intro results' st' lastIdx' log' rem cut h
          simp only [peel, if_neg hchunk] at h
          exact PeelRes.noConfusion h
        · intro buf' results' st' lastIdx' log' md h
          simp only [peel, if_neg hchunk, PeelRes.next.injEq] at h
          obtain ⟨-, -, -, -, hlog, -⟩ := h
          subst hlog
          exact fun q hq => Or.inl hq

/-- Every query logged by the prefetch fan-out carries the page size, the
latest milestone, and the paging state prescribed by
`prefetchPagingState`. -/
theorem prefetchInto_log (env : PageEnv) (depleted : List Nat) :
    ∀ (fids : List Nat) (listMap : List (Nat × PagedBuf)) (log : List QueryRec),
      ∀ q ∈ (fids.foldl
          (fun (acc : List (Nat × PagedBuf) × List QueryRec) fpid =>
            (alInsert acc.1 fpid (selectQ env fpid env.pageSize (prefetchPagingState env fpid)),
             acc.2 ++ [⟨fpid, env.pageSize, env.latest, prefetchPagingState env fpid, true,
                        depleted⟩]))
          (listMap, log)).2,
        q ∈ log ∨ (q.qPageSize = env.pageSize ∧ q.qLatest = env.latest ∧
          q.qPagingState = prefetchPagingState env q.pid) := by
  intro fids
  induction fids with
  | nil => exact fun listMap log q hq => Or.inl hq
  | cons f fs ih =>
    intro listMap log q hq
    rw [List.foldl_cons] at hq
    rcases ih _ _ q hq with hin | hgood
    · rcases List.mem_append.mp hin with h1 | h2
      · exact Or.inl h1
      · right
        rw [List.mem_singleton.mp h2]
        exact ⟨rfl, rfl, rfl⟩
    · exact Or.inr hgood

/-- Log invariant of the outer partition cycle: every query in the final
log was in the initial log, or is a (non-prefetch) re-query, or is a
prefetch query carrying the page size, the latest milestone and the
`prefetchPagingState` paging state. -/
theorem pageLoop_log (env : PageEnv) :
    ∀ (fuel ind : Nat) (listMap : List (Nat × PagedBuf)) (depleted : List Nat)
      (lastIdx : List (Nat × Nat)) (results : List Nat) (st : StateData)
      (log : List QueryRec) (res : List Nat × StateData × List QueryRec),
      pageLoop env fuel ind listMap depleted lastIdx results st log = some res →
      ∀ q ∈ res.2.2,
        q ∈ log ∨ q.fromPrefetch = false ∨
        (q.qPageSize = env.pageSize ∧ q.qLatest = env.latest ∧
         q.qPagingState = prefetchPagingState env q.pid) := by
  intro fuel
  induction fuel with
  | zero =>
    intro ind listMap depleted lastIdx results st log res h
    exact Option.noConfusion h
  | succ fuel ih =>
    intro ind listMap depleted lastIdx results st log res h
    cases hget : env.partitionIds.get? (ind % env.partitionIds.length) with
    | none =>
      simp only [pageLoop, hget] at h
      exact Option.noConfusion h
    | some entry =>
      obtain ⟨index, pid⟩ := entry
      simp only [pageLoop, hget] at h
      by_cases hall : (depleted.length == env.partitionIds.length) = true
      · rw [if_pos hall] at h
        injection h with h
        subst h
        exact fun q hq => Or.inl hq
      · rw [if_neg hall] at h
        by_cases hdep : pid ∈ depleted
        · rw [if_pos hdep] at h
          exact ih _ _ _ _ _ _ _ _ h
        · rw [if_neg hdep] at h
          by_cases hmap : (alFind listMap pid).isSome = true
          · rw [if_pos hmap] at h
            cases hfind : alFind listMap pid with
            | none =>
              simp only [hfind] at h
              exact Option.noConfusion h
            | some buf =>
              simp only [hfind] at h
              cases hpeel : peel env depleted pid fuel buf results st
                  (if (alFind lastIdx pid).isSome = true then lastIdx
                   else alInsert lastIdx pid index) log with
              | done results2 st2 lastIdx2 log2 rem2 cut2 =>
                simp only [hpeel] at h
                injection h with h
                subst h
                intro q hq
                rcases (peel_log_entries env depleted pid fuel buf results st _ log).1
                    _ _ _ _ _ _ hpeel q hq with hin | hfalse
                · exact Or.inl hin
                · exact Or.inr (Or.inl hfalse)
              | next buf2 results2 st2 lastIdx2 log2 md2 =>
                simp only [hpeel] at h
                intro q hq
                rcases ih _ _ _ _ _ _ _ _ h q hq with hin | hrest
                · rcases (peel_log_entries env depleted pid fuel buf results st _ log).2
                      _ _ _ _ _ _ hpeel q hin with hin1 | hfalse
                  · exact Or.inl hin1
                  · exact Or.inr (Or.inl hfalse)
                · exact Or.inr hrest
              | out =>
                simp only [hpeel] at h
                exact Option.noConfusion h
          · rw [if_neg hmap] at h
            rcases hPF : prefetchInto env depleted (ind % env.partitionIds.length)
                listMap log with ⟨listMap1, log1⟩
            rw [hPF] at h
            have hlog1 : ∀ q ∈ log1,
                q ∈ log ∨ (q.qPageSize = env.pageSize ∧ q.qLatest = env.latest ∧
                  q.qPagingState = prefetchPagingState env q.pid) := by
              intro q hq
              have hq2 : q ∈ (prefetchInto env depleted
                  (ind % env.partitionIds.length) listMap log).2 := by
                rw [hPF]
                exact hq
              exact prefetchInto_log env depleted
                (fetchIds env.partitionIds (ind % env.partitionIds.length)) listMap log q hq2
            cases hfind : alFind listMap1 pid with
            | none =>
              simp only [hfind] at h
              exact Option.noConfusion h
            | some buf =>
              simp only [hfind] at h
              cases hpeel : peel env depleted pid fuel buf results st
                  (if (alFind lastIdx pid).isSome = true then lastIdx
                   else alInsert lastIdx pid index) log1 with
              | done results2 st2 lastIdx2 log2 rem2 cut2 =>
                simp only [hpeel] at h
                injection h with h
                subst h
                intro q hq
                rcases (peel_log_entries env depleted pid fuel buf results st _ log1).1
                    _ _ _ _ _ _ hpeel q hq with hin | hfalse
                · rcases hlog1 q hin with h1 | h2
                  · exact Or.inl h1
                  · exact Or.inr (Or.inr h2)
                · exact Or.inr (Or.inl hfalse)
              | next buf2 results2 st2 lastIdx2 log2 md2 =>
                simp only [hpeel] at h
                intro q hq
                rcases ih _ _ _ _ _ _ _ _ h q hq with hin | hrest
                · rcases (peel_log_entries env depleted pid fuel buf results st _ log1).2
                      _ _ _ _ _ _ hpeel q hin with hin1 | hfalse
                  · rcases hlog1 q hin1 with h1 | h2
                    · exact Or.inl h1
                    · exact Or.inr (Or.inr h2)
                  · exact Or.inr (Or.inl hfalse)
                · exact Or.inr hrest
              | out =>
                simp only [hpeel] at h
                exact Option.noConfusion h

/-- C4 (amended): during prefetch, `page` issues up to `fetch_size = 2`
parallel select queries for the partitions at the current and the next
position of the partition list — in list order, without wraparound, and
regardless of whether that next partition is depleted (not "the next
non-depleted partition" as the claim states; see the counterexample).
Each prefetch query is bounded by `page_size` and parameterized by
`latest_milestone`, and the stored `prev_paging_state` is forwarded only
to the query whose partition id equals `prev_last_partition_id`
(`prefetchPagingState`); every other partition's query starts with no
paging state. -/
theorem pagePrefetchQueries :
    (∀ (l : List (Nat × Nat)) (i : Nat),
        fetchIds l i = ((l.drop i).take 2).map Prod.snd) ∧
    (∀ (env : PageEnv) (fuel ind : Nat) (listMap : List (Nat × PagedBuf))
        (depleted : List Nat) (lastIdx : List (Nat × Nat)) (results : List Nat)
        (st : StateData) (res : List Nat × StateData × List QueryRec),
        pageLoop env fuel ind listMap depleted lastIdx results st [] = some res →
        ∀ q ∈ res.2.2, q.fromPrefetch = true →
          q.qPageSize = env.pageSize ∧ q.qLatest = env.latest ∧
          q.qPagingState = prefetchPagingState env q.pid) := by
  refine ⟨fetchIds_eq, ?_⟩
  intro env fuel ind listMap depleted lastIdx results st res h q hq hpre
  rcases pageLoop_log env fuel ind listMap depleted lastIdx results st [] res h q hq
    with h1 | h2 | h3
  · exact absurd h1 (List.not_mem_nil q)
  · rw [hpre] at h2
    exact absurd h2 (by simp)
  · exact h3

/-- Witness for C4: the amended theorem applied to the two-entry window of
a concrete partition list and to the prefetch query of a concrete
single-partition run. -/
theorem pagePrefetchQueriesWitness :
    fetchIds [(10, 1), (9, 2), (8, 3)] 0 = [1, 2] ∧
    ((⟨1, 1, 5, none, true, []⟩ : QueryRec).qPageSize =
        (⟨[(1, [5, 5])], 100, 1, 5, [(5, 1)], none, none, none⟩ : PageEnv).pageSize ∧
      (⟨1, 1, 5, none, true, []⟩ : QueryRec).qLatest =
        (⟨[(1, [5, 5])], 100, 1, 5, [(5, 1)], none, none, none⟩ : PageEnv).latest ∧
      (⟨1, 1, 5, none, true, []⟩ : QueryRec).qPagingState =
        prefetchPagingState ⟨[(1, [5, 5])], 100, 1, 5, [(5, 1)], none, none, none⟩
          (⟨1, 1, 5, none, true, []⟩ : QueryRec).pid) :=
  ⟨(pagePrefetchQueries.1 [(10, 1), (9, 2), (8, 3)] 0).trans (by decide),
   pagePrefetchQueries.2 ⟨[(1, [5, 5])], 100, 1, 5, [(5, 1)], none, none, none⟩ 10 0 [] []
     [(1, 5)] [] ⟨none, none, none, [(5, 1)]⟩
     ([5], ⟨some 1, some 5, some 1, [(5, 1)]⟩, [⟨1, 1, 5, none, true, []⟩]) rfl
     ⟨1, 1, 5, none, true, []⟩ (by decide) rfl⟩

/-- Counterexample for C4: with partition list
`[(10,1), (9,2), (8,3), (5,2)]` (partition 2 appears twice), partitions 1
and 2 deplete during their first visits; when the cycle reaches position 2
(partition 3), the prefetch targets the partitions at positions 2 and 3 —
that is, partitions 3 and 2 — so the fourth logged query goes to partition
2 even though partition 2 is already depleted at that moment (its
`depletedAt` set `[1, 2]` contains its own pid 2).  The claim's "the
current partition and the next non-depleted partition" is therefore wrong:
the code takes the next list position regardless of depletion. -/
theorem pagePrefetchHitsDepleted :
    page [(1, [10]), (2, [9]), (3, [8, 7])] 100 3 [(10, 1), (9, 2), (8, 3), (5, 2)] 10 none
      = some (.ok ([10, 9, 8], ⟨some 3, some 7, none, [(10, 1), (9, 2), (8, 3), (5, 2)]⟩,
          [⟨1, 3, 10, none, true, []⟩, ⟨2, 3, 10, none, true, []⟩,
           ⟨3, 3, 10, none, true, [1, 2]⟩, ⟨2, 3, 10, none, true, [1, 2]⟩])) ∧
    (2 : Nat) ∈ [1, 2] :=
  ⟨rfl, by decide⟩

end Chronicle
